import Mathlib

/-!
# The Game of Life with cell energies: the generation kernel

A shallow embedding of `src/mappings.hpp` and of the kernel `conway` of
`src/main.cpp`, followed by theorems about it.

Conventions of the embedding.

* Machine integers are natural numbers (or integers where the source computes
  in a signed type); every operation that the source performs in a fixed-width
  type is followed by the reduction of that type (`% 2^32`, `% 2^64`, ...).
* A buffer (`const u8* in`, `u8* out`) is a function from indices to cell
  values.  A cell value is a `u8`; theorems that depend on it assume
  `inp i < 256` for the cells concerned.
* The build-time switch `ACCUMULATE_ON` is the parameter `accumulate`:
  `none` when the macro is not defined, `some t` when it is defined as `t`.
* `255 / lives` with `lives = 0` is undefined in the source; `conway` then
  returns `none`. `conway_run` and `random_populate` name the failure: they
  return a `Fault` where the source evaluates a division by zero.
* `generations` is the frame loop of `main` on its two buffers.
* `conway_mem` is the same kernel in a flat memory, with `in` and `out` as
  addresses, for statements about what a call leaves unchanged.
-/

namespace Conway

/-! ## `mappings.hpp` -/

/-- The function `map_1d_to_2d(u64 index, u64 width)`: `y = index / width`,
`x = index - y * width`, both computed in `u64`. The source divides by `width`,
which is undefined for `width = 0`; the kernel never calls it with `width = 0`. -/
def map_1d_to_2d (index width : Nat) : Nat × Nat :=
  let y := index / width
  let x := (index + 2 ^ 64 - (y * width) % 2 ^ 64) % 2 ^ 64
  (x, y)

/-- The function `map_2d_to_1d(u64 x, u64 y, u64 width)`: `y * width + x` in `u64`. -/
def map_2d_to_1d (x y width : Nat) : Nat :=
  (y * width + x) % 2 ^ 64

/-! ## The kernel `conway` of `main.cpp` -/

/-- The table `neighbour_offsets[8]` of `get_valid_offsets`, pairs of `i8`. -/
def neighbour_offsets : List (Int × Int) :=
  [(-1, -1), (0, -1), (1, -1),
   (-1,  0),          (1,  0),
   (-1,  1), (0,  1), (1,  1)]

/-- Subtraction of one in `u32`, as in `width - 1` and `height - 1`. -/
def u32_pred (n : Nat) : Nat :=
  (n + 2 ^ 32 - 1) % 2 ^ 32

/-- The lambda `get_valid_offsets(pixel, width, height)`: the eight offsets of
the table, in the order of the table, each with its validity flag. The
arguments are `u32`. -/
def get_valid_offsets (pixel : Nat × Nat) (width height : Nat) :
    List (Bool × (Int × Int)) :=
  let x := pixel.1
  let y := pixel.2
  [ (decide (x > 0) && decide (y > 0), neighbour_offsets.getD 0 (0, 0)),
    (decide (y > 0), neighbour_offsets.getD 1 (0, 0)),
    (decide (x < u32_pred width) && decide (y > 0), neighbour_offsets.getD 2 (0, 0)),
    (decide (x > 0), neighbour_offsets.getD 3 (0, 0)),
    (decide (x < u32_pred width), neighbour_offsets.getD 4 (0, 0)),
    (decide (x > 0) && decide (y < u32_pred height), neighbour_offsets.getD 5 (0, 0)),
    (decide (y < u32_pred height), neighbour_offsets.getD 6 (0, 0)),
    (decide (x < u32_pred width) && decide (y < u32_pred height),
      neighbour_offsets.getD 7 (0, 0)) ]

/-- Conversion of a signed offset to `u64`, as happens to `off_x` in
`x + off_x` where `x` is a `u64`. -/
def to_u64 (v : Int) : Nat :=
  (v % 2 ^ 64).toNat

/-- The index `map_2d_to_1d(x + off_x, y + off_y, width)` at which the counting
lambda reads the source grid, with the additions carried out in `u64`. -/
def neighbour_index (x y width : Nat) (offset : Int × Int) : Nat :=
  map_2d_to_1d ((x + to_u64 offset.1) % 2 ^ 64) ((y + to_u64 offset.2) % 2 ^ 64) width

/-- The counting lambda passed to `std::transform_reduce`: `0` for an offset
that is not valid, otherwise whether the cell of the neighbour is non-zero. -/
def count_neighbour (inp : Nat → Nat) (width x y : Nat) (p : Bool × (Int × Int)) : Nat :=
  if p.1 = false then 0
  else if inp (neighbour_index x y width p.2) ≠ 0 then 1 else 0

/-- The reduction `std::plus<u8>` applied to the running `int` total and a
`u8` term: both operands are taken as `u8`, and so is the sum. The operation is
associative and commutative (`plus_u8_assoc`, `plus_u8_comm`), so the grouping
that `std::transform_reduce` leaves unspecified does not affect the total. -/
def plus_u8 (a b : Nat) : Nat :=
  (a % 256 + b % 256) % 256

/-- The value `living_neighbours` of the loop body at index `i`: the
`transform_reduce` over the eight flagged offsets, starting from `0`. The pixel
is narrowed from a pair of `u64` to a pair of `u32` for `get_valid_offsets`. -/
def living_neighbours (inp : Nat → Nat) (width height i : Nat) : Nat :=
  let pixel := map_1d_to_2d i width
  let offsets := get_valid_offsets (pixel.1 % 2 ^ 32, pixel.2 % 2 ^ 32) width height
  offsets.foldl (fun total p => plus_u8 total (count_neighbour inp width pixel.1 pixel.2 p)) 0

/-- The function `std::clamp(v, lo, hi)`. -/
def clamp (v lo hi : Int) : Int :=
  if v < lo then lo else if hi < v then hi else v

/-- Conversion of an `int` to `u16`. -/
def to_u16 (v : Int) : Int :=
  v % 2 ^ 16

/-- Conversion of an `int` to `i16`. -/
def to_i16 (v : Int) : Int :=
  (v + 2 ^ 15) % 2 ^ 16 - 2 ^ 15

/-- Conversion of an integer to `u8`, as on assignment to `out[i]`. -/
def to_u8 (v : Int) : Nat :=
  (v % 2 ^ 8).toNat

/-- The value the loop body assigns to `out[i]`, given `cell_life_value`. -/
def conway_cell (accumulate : Option Nat) (inp : Nat → Nat) (width height : Nat)
    (cell_life_value : Nat) (i : Nat) : Nat :=
  let living := living_neighbours inp width height i
  let cell_status := inp i
  if cell_status ≠ 0 then
    if accumulate = some living then
      to_u8 (clamp (to_u16 ((cell_status : Int) + cell_life_value)) 0 255)
    else if living < 2 ∨ living > 3 then
      to_u8 (clamp (to_i16 ((cell_status : Int) - cell_life_value)) 0 255)
    else
      cell_status
  else if living = 3 then
    to_u8 cell_life_value
  else
    0

/-- One execution of the loop body at index `i`: the assignment to `out[i]`. -/
def conway_body (accumulate : Option Nat) (inp : Nat → Nat) (width height : Nat)
    (cell_life_value : Nat) (out : Nat → Nat) (i : Nat) : Nat → Nat :=
  Function.update out i (conway_cell accumulate inp width height cell_life_value i)

/-- The bound `width * height` of the loop, a product of two `u32`. -/
def loop_bound (width height : Nat) : Nat :=
  (width * height) % 2 ^ 32

/-- The kernel `conway(in, out, width, height, lives)`: `cell_life_value` is
`255 / lives`, then the loop body runs for `i = 0, 1, ...` below the bound. The
result is the destination buffer after the call. -/
def conway (accumulate : Option Nat) (inp out : Nat → Nat) (width height lives : Nat) :
    Option (Nat → Nat) :=
  if lives = 0 then none
  else
    let cell_life_value := 255 / lives
    some ((List.range (loop_bound width height)).foldl
      (conway_body accumulate inp width height cell_life_value) out)

/-- The indices at which the loop body at index `i` reads `in`: the index
computed by the counting lambda for every offset flagged valid (the lambda
returns before reading for the others), then `i` itself for `in[i]`. -/
def read_indices (width height i : Nat) : List Nat :=
  let pixel := map_1d_to_2d i width
  let offsets := get_valid_offsets (pixel.1 % 2 ^ 32, pixel.2 % 2 ^ 32) width height
  (offsets.filter (fun p => p.1)).map (fun p => neighbour_index pixel.1 pixel.2 width p.2)
    ++ [i]

/-- The number of offsets that `get_valid_offsets` flags valid for a cell. -/
def valid_count (x y width height : Nat) : Nat :=
  (get_valid_offsets (x, y) width height).countP (fun p => p.1)

/-- The expression of the decay branch of the loop body, as stored in `out[i]`:
`std::clamp<i16>(static_cast<i16>(cell_status) - cell_life_value, 0, 255)`. -/
def decay (cell_status cell_life_value : Nat) : Nat :=
  to_u8 (clamp (to_i16 ((cell_status : Int) - cell_life_value)) 0 255)

/-- The constant `cell_lives` of `main.cpp`, the only value of `lives` that the
program passes to `random_populate` and to `conway`. -/
def cell_lives : Nat :=
  1

/-- The frame loop of `main`, reduced to its two buffers: each iteration calls
`conway(last_frame, this_frame, ...)` and then swaps the two buffers, so the
grid just computed is the source of the next call and the old source is its
destination. The result is `last_frame` after `k` iterations. -/
def generations (accumulate : Option Nat) (width height lives : Nat) :
    Nat → (Nat → Nat) → (Nat → Nat) → Option (Nat → Nat)
  | 0, last_frame, _ => some last_frame
  | k + 1, last_frame, this_frame =>
    match conway accumulate last_frame this_frame width height lives with
    | none => none
    | some next => generations accumulate width height lives k next last_frame

/-- The loop body at index `i` in a flat memory, where the pointers `in` and `out`
are the addresses `src` and `dst`: a read `in[k]` is a read of the memory at
`src + k` at the time of the iteration, the assignment to `out[i]` is a write at
`dst + i`. -/
def conway_mem_body (accumulate : Option Nat) (src dst width height cell_life_value : Nat)
    (mem : Nat → Nat) (i : Nat) : Nat → Nat :=
  Function.update mem (dst + i)
    (conway_cell accumulate (fun k => mem (src + k)) width height cell_life_value i)

/-- The kernel `conway` in a flat memory: the memory after the call. -/
def conway_mem (accumulate : Option Nat) (src dst width height lives : Nat)
    (mem : Nat → Nat) : Option (Nat → Nat) :=
  if lives = 0 then none
  else
    let cell_life_value := 255 / lives
    some ((List.range (loop_bound width height)).foldl
      (conway_mem_body accumulate src dst width height cell_life_value) mem)

/-- The ways a call can fail. `division_by_zero`: an integer division was
evaluated with divisor zero, which the source leaves undefined.
`configuration_error`: the rejection of an invalid configuration that the
specification asks for; no statement of the source produces it. -/
inductive Fault where
  | division_by_zero
  | configuration_error

/-- The integer division `a / b` as the source evaluates it. -/
def checked_div (a b : Nat) : Except Fault Nat :=
  if b = 0 then Except.error Fault.division_by_zero else Except.ok (a / b)

/-- The kernel `conway` with the evaluation of `255 / lives` made explicit: the
division is the first statement of the function, before the loop and without any
test of `lives`. -/
def conway_run (accumulate : Option Nat) (inp out : Nat → Nat) (width height lives : Nat) :
    Except Fault (Nat → Nat) :=
  match checked_div 255 lives with
  | Except.error f => Except.error f
  | Except.ok cell_life_value =>
    Except.ok ((List.range (loop_bound width height)).foldl
      (conway_body accumulate inp width height cell_life_value) out)

/-- The loop of `random_populate` over the indices of a list: `out[x]` is
`dist(engine) * 255 / lives` stored as `u8`, where `draws x` stands for the value
that `dist(engine)` returns in iteration `x`. -/
def random_populate_loop (draws : Nat → Nat) (lives : Nat) :
    List Nat → (Nat → Nat) → Except Fault (Nat → Nat)
  | [], out => Except.ok out
  | x :: xs, out =>
    match checked_div (draws x * 255) lives with
    | Except.error f => Except.error f
    | Except.ok v => random_populate_loop draws lives xs (Function.update out x (to_u8 v))

/-- The function `random_populate(out, size, lives)`: the loop for
`x = 0, ..., size - 1`. There is no test of `lives`. -/
def random_populate (draws out : Nat → Nat) (size lives : Nat) : Except Fault (Nat → Nat) :=
  random_populate_loop draws lives (List.range size) out

/-! ## Notions of the specification -/

/-- Whether the integer coordinates `(cx, cy)` lie in the grid. -/
def in_grid (width height : Nat) (cx cy : Int) : Prop :=
  0 ≤ cx ∧ cx < width ∧ 0 ≤ cy ∧ cy < height

instance (width height : Nat) (cx cy : Int) : Decidable (in_grid width height cx cy) :=
  inferInstanceAs (Decidable (0 ≤ cx ∧ cx < width ∧ 0 ≤ cy ∧ cy < height))

/-- The eight offsets of the 8-neighbourhood, `{-1, 0, 1}²` without `(0, 0)`. -/
def moore_offsets : List (Int × Int) :=
  [(-1, -1), (-1, 0), (-1, 1), (0, -1), (0, 1), (1, -1), (1, 0), (1, 1)]

/-- The cell at offset `d` from `(x, y)` is in the grid and holds non-zero
energy. -/
def live_at (inp : Nat → Nat) (width height : Nat) (x y : Int) (d : Int × Int) : Bool :=
  decide (in_grid width height (x + d.1) (y + d.2)) &&
    decide (inp (((y + d.2) * width + (x + d.1)).toNat) ≠ 0)

/-- The number of live neighbours of the cell with index `i`, which is the cell
in column `i % width` of row `i / width`: its in-grid 8-neighbours with non-zero
energy. -/
def live_neighbour_count (inp : Nat → Nat) (width height i : Nat) : Nat :=
  moore_offsets.countP
    (live_at inp width height ((i % width : Nat) : Int) ((i / width : Nat) : Int))

/-! ## Grids used as concrete inputs -/

/-- A 3×3 grid: a cell of energy 7 in the middle with three live neighbours. -/
def grid_a : Nat → Nat :=
  fun j => [0, 255, 0, 0, 7, 255, 255, 0, 0].getD j 0

/-- A 2×2 grid: a single cell of energy 10. -/
def grid_b : Nat → Nat :=
  fun j => [10, 0, 0, 0].getD j 0

/-- A 3×3 grid: a cell of energy 100 in the middle with two live neighbours. -/
def grid_c : Nat → Nat :=
  fun j => [255, 255, 0, 0, 100, 0, 0, 0, 0].getD j 0

/-- A 4×4 grid with a single live cell, in the corner opposite to cell 0. -/
def grid_d : Nat → Nat :=
  fun j => if j = 15 then 255 else 0

/-- The grid with no live cell. -/
def grid_zero : Nat → Nat :=
  fun _ => 0

/-- A destination buffer holding stale values. -/
def stale : Nat → Nat :=
  fun _ => 9

/-- The grid of the given width whose cells at the listed coordinates `(x, y)`
hold energy 255 and whose other cells are dead. -/
def grid_of_cells (width : Nat) (cells : List (Nat × Nat)) : Nat → Nat :=
  fun i => if map_1d_to_2d i width ∈ cells then 255 else 0

/-- The glider in the box from `(1, 1)` to `(3, 3)`, as coordinates `(x, y)`. -/
def glider_cells : List (Nat × Nat) :=
  [(2, 1), (3, 2), (1, 3), (2, 3), (3, 3)]

/-- The live cells one generation after `glider_cells`. -/
def glider_cells_1 : List (Nat × Nat) :=
  [(1, 2), (3, 2), (2, 3), (3, 3), (2, 4)]

/-- The live cells two generations after `glider_cells`. -/
def glider_cells_2 : List (Nat × Nat) :=
  [(3, 2), (1, 3), (3, 3), (2, 4), (3, 4)]

/-- The live cells three generations after `glider_cells`. -/
def glider_cells_3 : List (Nat × Nat) :=
  [(2, 2), (3, 3), (4, 3), (2, 4), (3, 4)]

/-- The cells of a list, each moved by `(1, 1)`. -/
def translate_cells (cells : List (Nat × Nat)) : List (Nat × Nat) :=
  cells.map (fun c => (c.1 + 1, c.2 + 1))

/-- The 2×2 square whose top left cell is in column `bcol` of row `brow`. -/
def block_cells (bcol brow : Nat) : List (Nat × Nat) :=
  [(bcol, brow), (bcol + 1, brow), (bcol, brow + 1), (bcol + 1, brow + 1)]

/-- Whether column (or row) `x + m` is one of the two columns (rows) `b`, `b + 1`
of a 2×2 square. -/
def in_span (b x : Nat) (m : Int) : Bool :=
  decide ((b : Int) ≤ x + m ∧ (x : Int) + m ≤ b + 1)

/-- A memory holding the grid `grid_b` at addresses 0..3 and stale bytes after. -/
def memory_b : Nat → Nat :=
  fun a => if a < 4 then grid_b a else 9

/-! ## Index arithmetic -/

theorem map_1d_to_2d_eq (i width : Nat) (hi : i < 2 ^ 64) :
    map_1d_to_2d i width = (i % width, i / width) := by
  have h1 : i / width * width ≤ i := Nat.div_mul_le_self i width
  have h2 : i / width * width + i % width = i := by
    rw [Nat.mul_comm]; exact Nat.div_add_mod i width
  simp only [map_1d_to_2d, Prod.mk.injEq, and_true]
  omega

theorem mul_lt_u64 (width height : Nat) (hw : width < 2 ^ 32) (hh : height < 2 ^ 32) :
    width * height < 2 ^ 64 := by
  have h : width * height ≤ (2 ^ 32 - 1) * (2 ^ 32 - 1) :=
    Nat.mul_le_mul (by omega) (by omega)
  have h2 : (2 ^ 32 - 1) * (2 ^ 32 - 1) < 2 ^ 64 := by norm_num
  omega

theorem cell_index_lt (width height cx cy : Nat) (hx : cx < width) (hy : cy < height) :
    cy * width + cx < width * height := by
  have h : (cy + 1) * width ≤ height * width := Nat.mul_le_mul_right width (by omega)
  have h2 : (cy + 1) * width = cy * width + width := by ring
  have h3 : height * width = width * height := Nat.mul_comm _ _
  omega

/-- The row-major index of a cell given by natural coordinates, computed over the
integers. -/
theorem index_toNat (cx cy width : Nat) :
    ((cy : Int) * width + cx).toNat = cy * width + cx := by
  have h : ((cy : Int) * width + cx) = ((cy * width + cx : Nat) : Int) := by push_cast; rfl
  rw [h, Int.toNat_ofNat]

/-- The index read for an offset whose target is in the grid is the row-major
index of the target, and lies inside the buffer. -/
theorem neighbour_index_eq (width height x y : Nat) (d : Int × Int)
    (hw : width < 2 ^ 32) (hh : height < 2 ^ 32)
    (hin : in_grid width height (x + d.1) (y + d.2)) :
    neighbour_index x y width d = (((y : Int) + d.2) * width + (x + d.1)).toNat ∧
      neighbour_index x y width d < width * height := by
  obtain ⟨h1, h2, h3, h4⟩ := hin
  obtain ⟨cx, hcx⟩ := Int.eq_ofNat_of_zero_le h1
  obtain ⟨cy, hcy⟩ := Int.eq_ofNat_of_zero_le h3
  have hcxw : cx < width := by omega
  have hcyh : cy < height := by omega
  have hlt := cell_index_lt width height cx cy hcxw hcyh
  have h64 := mul_lt_u64 width height hw hh
  have ex : (x + to_u64 d.1) % 2 ^ 64 = cx := by unfold to_u64; omega
  have ey : (y + to_u64 d.2) % 2 ^ 64 = cy := by unfold to_u64; omega
  have e : neighbour_index x y width d = cy * width + cx := by
    unfold neighbour_index map_2d_to_1d
    rw [ex, ey]
    exact Nat.mod_eq_of_lt (by omega)
  have e2 : (((y : Int) + d.2) * width + (x + d.1)).toNat = cy * width + cx := by
    rw [hcx, hcy, index_toNat]
  rw [e, e2]
  exact ⟨rfl, hlt⟩

/-! ## The neighbour locator -/

/-- Each flag of `get_valid_offsets` says whether the target of its offset is in
the grid. -/
theorem get_valid_offsets_flag (width height x y : Nat)
    (hw : width < 2 ^ 32) (hh : height < 2 ^ 32) (hx : x < width) (hy : y < height)
    (p : Bool × (Int × Int)) (hp : p ∈ get_valid_offsets (x, y) width height) :
    p.1 = true ↔ in_grid width height (x + p.2.1) (y + p.2.2) := by
  have ew : u32_pred width = width - 1 := by unfold u32_pred; omega
  have eh : u32_pred height = height - 1 := by unfold u32_pred; omega
  simp only [get_valid_offsets, neighbour_offsets, List.getD_cons_zero, List.getD_cons_succ,
    List.mem_cons, List.mem_singleton, List.not_mem_nil, or_false, ew, eh] at hp
  rcases hp with rfl | rfl | rfl | rfl | rfl | rfl | rfl | rfl <;>
    simp only [in_grid, Bool.and_eq_true, decide_eq_true_eq] <;> omega

theorem get_valid_offsets_snd (pixel : Nat × Nat) (width height : Nat) :
    (get_valid_offsets pixel width height).map Prod.snd = neighbour_offsets := by
  simp [get_valid_offsets, neighbour_offsets]

/-! ## The neighbour count -/

/-- The value of the counting lambda at an entry of `get_valid_offsets`. -/
theorem count_neighbour_eq (inp : Nat → Nat) (width height x y : Nat)
    (hw : width < 2 ^ 32) (hh : height < 2 ^ 32) (hx : x < width) (hy : y < height)
    (p : Bool × (Int × Int)) (hp : p ∈ get_valid_offsets (x, y) width height) :
    count_neighbour inp width x y p = (live_at inp width height x y p.2).toNat := by
  have hflag := get_valid_offsets_flag width height x y hw hh hx hy p hp
  unfold count_neighbour live_at
  by_cases hin : in_grid width height (x + p.2.1) (y + p.2.2)
  · have hidx := (neighbour_index_eq width height x y p.2 hw hh hin).1
    have hf : p.1 = true := hflag.mpr hin
    rw [hidx]
    by_cases hz : inp (((y : Int) + p.2.2) * width + (x + p.2.1)).toNat = 0 <;>
      simp [hf, hin, hz]
  · have hf : p.1 = false := by
      cases h : p.1
      · rfl
      · exact absurd (hflag.mp h) hin
    simp [hf, hin]

theorem plus_u8_comm (a b : Nat) : plus_u8 a b = plus_u8 b a := by
  unfold plus_u8; omega

theorem plus_u8_assoc (a b c : Nat) :
    plus_u8 (plus_u8 a b) c = plus_u8 a (plus_u8 b c) := by
  unfold plus_u8; omega

/-- A `std::plus<u8>` reduction of terms that are `0` or `1` is their sum, as
long as the sum stays below 256. -/
theorem foldl_plus_u8 (l : List Nat) (total : Nat) (hl : ∀ v ∈ l, v ≤ 1)
    (hlen : total + l.length < 256) :
    l.foldl plus_u8 total = total + l.sum := by
  induction l generalizing total with
  | nil => simp
  | cons v l ih =>
    have hv : v ≤ 1 := hl v (List.mem_cons_self _ _)
    have e : plus_u8 total v = total + v := by
      simp only [List.length_cons] at hlen
      unfold plus_u8; omega
    simp only [List.foldl_cons, List.sum_cons, e]
    rw [ih (total + v) (fun w hw => hl w (List.mem_cons_of_mem _ hw))
      (by simp only [List.length_cons] at hlen; omega)]
    omega

/-- The count of the kernel at a cell `(x, y)` of the grid is the number of
live neighbours of the cell. -/
theorem fold_count_eq (inp : Nat → Nat) (width height x y : Nat)
    (hw : width < 2 ^ 32) (hh : height < 2 ^ 32) (hx : x < width) (hy : y < height) :
    (get_valid_offsets (x, y) width height).foldl
        (fun total p => plus_u8 total (count_neighbour inp width x y p)) 0 =
      moore_offsets.countP (live_at inp width height x y) := by
  have e1 : (get_valid_offsets (x, y) width height).foldl
        (fun total p => plus_u8 total (count_neighbour inp width x y p)) 0 =
      ((get_valid_offsets (x, y) width height).map
        (count_neighbour inp width x y)).foldl plus_u8 0 := by
    rw [List.foldl_map]
  have e2 : (get_valid_offsets (x, y) width height).map (count_neighbour inp width x y) =
      neighbour_offsets.map (fun d => (live_at inp width height x y d).toNat) := by
    rw [← get_valid_offsets_snd (x, y) width height, List.map_map]
    exact List.map_congr_left
      (fun p hp => count_neighbour_eq inp width height x y hw hh hx hy p hp)
  rw [e1, e2, foldl_plus_u8]
  · simp only [neighbour_offsets, moore_offsets, List.map_cons, List.map_nil, List.sum_cons,
      List.sum_nil, List.countP_cons, List.countP_nil]
    cases live_at inp width height x y (-1, -1) <;>
    cases live_at inp width height x y (0, -1) <;>
    cases live_at inp width height x y (1, -1) <;>
    cases live_at inp width height x y (-1, 0) <;>
    cases live_at inp width height x y (1, 0) <;>
    cases live_at inp width height x y (-1, 1) <;>
    cases live_at inp width height x y (0, 1) <;>
    cases live_at inp width height x y (1, 1) <;> rfl
  · intro v hv
    simp only [List.mem_map] at hv
    obtain ⟨d, _, rfl⟩ := hv
    exact Bool.toNat_le _
  · simp [neighbour_offsets]

theorem living_neighbours_eq (inp : Nat → Nat) (width height i : Nat)
    (hw : width < 2 ^ 32) (hh : height < 2 ^ 32) (hi : i < width * height) :
    living_neighbours inp width height i = live_neighbour_count inp width height i := by
  have h64 := mul_lt_u64 width height hw hh
  have hwpos : 0 < width := Nat.pos_of_ne_zero (by rintro rfl; simp at hi)
  have hx : i % width < width := Nat.mod_lt _ hwpos
  have hy : i / width < height := Nat.div_lt_of_lt_mul hi
  unfold living_neighbours live_neighbour_count
  rw [map_1d_to_2d_eq i width (by omega)]
  simp only
  rw [Nat.mod_eq_of_lt (show i % width < 2 ^ 32 by omega),
    Nat.mod_eq_of_lt (show i / width < 2 ^ 32 by omega)]
  exact fold_count_eq inp width height (i % width) (i / width) hw hh hx hy

/-! ## The loop and the rule -/

/-- After the loop body has run over the indices of `l`, the destination holds
the value of the loop body at every index of `l` and its previous content elsewhere. -/
theorem foldl_conway_body_apply (accumulate : Option Nat) (inp : Nat → Nat)
    (width height step : Nat) (l : List Nat) (out : Nat → Nat) (j : Nat) :
    (l.foldl (conway_body accumulate inp width height step) out) j =
      if j ∈ l then conway_cell accumulate inp width height step j else out j := by
  induction l using List.reverseRecOn with
  | nil => simp
  | append_singleton l a ih =>
    rw [List.foldl_append, List.foldl_cons, List.foldl_nil, conway_body]
    by_cases hja : j = a
    · subst hja; simp
    · rw [Function.update_noteq hja, ih]; simp [hja]

theorem conway_eq_some (accumulate : Option Nat) (inp out : Nat → Nat)
    (width height lives : Nat) (hlives : 0 < lives) :
    conway accumulate inp out width height lives =
      some ((List.range (loop_bound width height)).foldl
        (conway_body accumulate inp width height (255 / lives)) out) := by
  unfold conway
  rw [if_neg (by omega)]

/-- The destination after a call, at an index the loop visits. -/
theorem conway_apply (accumulate : Option Nat) (inp out : Nat → Nat)
    (width height lives i : Nat) (hlives : 0 < lives)
    (hi : i < (width * height) % 2 ^ 32) :
    ∃ next, conway accumulate inp out width height lives = some next ∧
      next i = conway_cell accumulate inp width height (255 / lives) i := by
  refine ⟨_, conway_eq_some accumulate inp out width height lives hlives, ?_⟩
  rw [foldl_conway_body_apply, if_pos (List.mem_range.mpr (by unfold loop_bound; exact hi))]

theorem lt_of_lt_loop_bound (width height i : Nat) (hi : i < (width * height) % 2 ^ 32) :
    i < width * height :=
  Nat.lt_of_lt_of_le hi (Nat.mod_le _ _)

/-- The value of the loop body, with the neighbour count of the specification. -/
theorem conway_cell_eq (accumulate : Option Nat) (inp : Nat → Nat)
    (width height step i : Nat) (hw : width < 2 ^ 32) (hh : height < 2 ^ 32)
    (hi : i < width * height) :
    conway_cell accumulate inp width height step i =
      if inp i ≠ 0 then
        if accumulate = some (live_neighbour_count inp width height i) then
          to_u8 (clamp (to_u16 ((inp i : Int) + step)) 0 255)
        else if live_neighbour_count inp width height i < 2 ∨
            live_neighbour_count inp width height i > 3 then
          to_u8 (clamp (to_i16 ((inp i : Int) - step)) 0 255)
        else inp i
      else if live_neighbour_count inp width height i = 3 then to_u8 step
      else 0 := by
  unfold conway_cell
  rw [living_neighbours_eq inp width height i hw hh hi]

theorem decay_value (c step : Nat) (hc : c < 256) (hs : step ≤ 255) :
    to_u8 (clamp (to_i16 ((c : Int) - step)) 0 255) = c - step := by
  have e : to_i16 ((c : Int) - step) = (c : Int) - step := by unfold to_i16; omega
  rw [e]
  unfold to_u8 clamp
  split_ifs <;> omega

theorem growth_value (c step : Nat) (hc : c < 256) (hs : step ≤ 255) :
    to_u8 (clamp (to_u16 ((c : Int) + step)) 0 255) = min (c + step) 255 := by
  have e : to_u16 ((c : Int) + step) = (c : Int) + step := by unfold to_u16; omega
  rw [e]
  unfold to_u8 clamp
  split_ifs <;> omega

theorem birth_value (step : Nat) (hs : step ≤ 255) : to_u8 step = step := by
  unfold to_u8; omega

theorem step_le (lives : Nat) : 255 / lives ≤ 255 := Nat.div_le_self 255 lives

/-! ## The number of valid offsets -/

theorem valid_count_eq (x y width height : Nat) (hw1 : 1 ≤ width) (hw : width < 2 ^ 32)
    (hh1 : 1 ≤ height) (hh : height < 2 ^ 32) :
    valid_count x y width height =
      ((if 0 < x then 1 else 0) + 1 + (if x < width - 1 then 1 else 0)) *
      ((if 0 < y then 1 else 0) + 1 + (if y < height - 1 then 1 else 0)) - 1 := by
  have ew : u32_pred width = width - 1 := by unfold u32_pred; omega
  have eh : u32_pred height = height - 1 := by unfold u32_pred; omega
  simp only [valid_count, get_valid_offsets, ew, eh, List.countP_cons, List.countP_nil]
  by_cases h1 : 0 < x <;> by_cases h2 : x < width - 1 <;> by_cases h3 : 0 < y <;>
    by_cases h4 : y < height - 1 <;> simp [h1, h2, h3, h4]

/-! ## Dependence on the source grid -/

theorem moore_offsets_bound (d : Int × Int) (hd : d ∈ moore_offsets) :
    -1 ≤ d.1 ∧ d.1 ≤ 1 ∧ -1 ≤ d.2 ∧ d.2 ≤ 1 := by
  simp only [moore_offsets, List.mem_cons, List.mem_singleton, List.not_mem_nil,
    or_false] at hd
  rcases hd with rfl | rfl | rfl | rfl | rfl | rfl | rfl | rfl <;> decide

/-- Two source grids that agree on the in-grid cells around `(x, y)` give the
same answer to "is the neighbour at offset `d` alive". -/
theorem live_at_congr (inp1 inp2 : Nat → Nat) (width height x y : Nat)
    (hagree : ∀ cx cy : Nat, cx < width → cy < height →
      cx ≤ x + 1 → x ≤ cx + 1 → cy ≤ y + 1 → y ≤ cy + 1 →
      inp1 (cy * width + cx) = inp2 (cy * width + cx))
    (d : Int × Int) (hd : d ∈ moore_offsets) :
    live_at inp1 width height x y d = live_at inp2 width height x y d := by
  obtain ⟨b1, b2, b3, b4⟩ := moore_offsets_bound d hd
  unfold live_at
  by_cases hin : in_grid width height (x + d.1) (y + d.2)
  · obtain ⟨h1, h2, h3, h4⟩ := hin
    obtain ⟨cx, hcx⟩ := Int.eq_ofNat_of_zero_le h1
    obtain ⟨cy, hcy⟩ := Int.eq_ofNat_of_zero_le h3
    rw [hcx, hcy, index_toNat,
      hagree cx cy (by omega) (by omega) (by omega) (by omega) (by omega) (by omega)]
  · simp [hin]

theorem live_neighbour_count_congr (inp1 inp2 : Nat → Nat) (width height i : Nat)
    (hagree : ∀ cx cy : Nat, cx < width → cy < height →
      cx ≤ i % width + 1 → i % width ≤ cx + 1 → cy ≤ i / width + 1 → i / width ≤ cy + 1 →
      inp1 (cy * width + cx) = inp2 (cy * width + cx)) :
    live_neighbour_count inp1 width height i = live_neighbour_count inp2 width height i := by
  unfold live_neighbour_count
  exact List.countP_congr (fun d hd => by
    rw [live_at_congr inp1 inp2 width height (i % width) (i / width) hagree d hd])

/-- The loop body at index `i` depends on the source grid only through the cells
listed by `read_indices`. -/
theorem conway_cell_footprint (accumulate : Option Nat) (inp1 inp2 : Nat → Nat)
    (width height step i : Nat)
    (hagree : ∀ j ∈ read_indices width height i, inp1 j = inp2 j) :
    conway_cell accumulate inp1 width height step i =
      conway_cell accumulate inp2 width height step i := by
  have hself : inp1 i = inp2 i := hagree i (by simp [read_indices])
  have hcount : living_neighbours inp1 width height i =
      living_neighbours inp2 width height i := by
    unfold living_neighbours
    simp only
    rw [← List.foldl_map (count_neighbour inp1 width _ _) plus_u8,
      ← List.foldl_map (count_neighbour inp2 width _ _) plus_u8]
    congr 1
    apply List.map_congr_left
    intro p hp
    unfold count_neighbour
    by_cases hf : p.1 = false
    · rw [if_pos hf, if_pos hf]
    · rw [if_neg hf, if_neg hf]
      have hmem : neighbour_index (map_1d_to_2d i width).1 (map_1d_to_2d i width).2 width p.2 ∈
          read_indices width height i := by
        unfold read_indices
        simp only [List.mem_append, List.mem_map, List.mem_filter]
        exact Or.inl ⟨p, ⟨hp, by simpa using hf⟩, rfl⟩
      rw [hagree _ hmem]
  unfold conway_cell
  simp only [hcount, hself]

/-! ## The generation rule -/

/-- C1, amended: with `lives = 1` and `ACCUMULATE_ON` not defined, at every index
`i` the loop visits, `i < (width * height) % 2^32` (every cell of the grid when
`width * height < 2^32`), `next[i]` is
non-zero exactly when the cell is alive with 2 or 3 live neighbours, or dead with
exactly 3 live neighbours, whatever energy 0..255 the cell holds. -/
theorem conway_classic_life (inp out : Nat → Nat) (width height i : Nat)
    (hw : width < 2 ^ 32) (hh : height < 2 ^ 32)
    (hi : i < (width * height) % 2 ^ 32) (hcell : inp i < 256) :
    ∃ next, conway none inp out width height 1 = some next ∧
      (next i ≠ 0 ↔
        (inp i ≠ 0 ∧ (live_neighbour_count inp width height i = 2 ∨
          live_neighbour_count inp width height i = 3)) ∨
        (inp i = 0 ∧ live_neighbour_count inp width height i = 3)) := by
  obtain ⟨next, hnext, hval⟩ := conway_apply none inp out width height 1 i (by decide) hi
  refine ⟨next, hnext, ?_⟩
  rw [hval, conway_cell_eq none inp width height _ i hw hh (lt_of_lt_loop_bound _ _ _ hi)]
  have hd := decay_value (inp i) (255 / 1) hcell (step_le 1)
  have hb := birth_value (255 / 1) (step_le 1)
  simp only [Nat.div_one] at hd hb
  simp only [Nat.div_one, hd, hb]
  split_ifs <;> simp_all <;> omega

theorem conway_classic_life_witness :
    (3 < 2 ^ 32 ∧ 3 < 2 ^ 32 ∧ 4 < (3 * 3) % 2 ^ 32 ∧ grid_a 4 < 256) ∧
    ∃ next, conway none grid_a stale 3 3 1 = some next ∧
      (next 4 ≠ 0 ↔
        (grid_a 4 ≠ 0 ∧ (live_neighbour_count grid_a 3 3 4 = 2 ∨
          live_neighbour_count grid_a 3 3 4 = 3)) ∨
        (grid_a 4 = 0 ∧ live_neighbour_count grid_a 3 3 4 = 3)) :=
  ⟨by decide, conway_classic_life grid_a stale 3 3 4 (by decide) (by decide) (by decide)
    (by decide)⟩

/-- C2: for every `lives ≥ 1`, a live cell with fewer than 2 or more than 3 live
neighbours, whose count is not an enabled accumulate threshold, gets
`max (current - step) 0` with `step = 255 / lives`; the result is at most 255. -/
theorem conway_decay_saturates (accumulate : Option Nat) (inp out : Nat → Nat)
    (width height lives i : Nat) (hw : width < 2 ^ 32) (hh : height < 2 ^ 32)
    (hi : i < (width * height) % 2 ^ 32) (hlives : 1 ≤ lives)
    (hcell : inp i < 256) (halive : inp i ≠ 0)
    (hcount : live_neighbour_count inp width height i < 2 ∨
      live_neighbour_count inp width height i > 3)
    (hacc : accumulate ≠ some (live_neighbour_count inp width height i)) :
    ∃ next, conway accumulate inp out width height lives = some next ∧
      (next i : Int) = max ((inp i : Int) - ((255 / lives : Nat) : Int)) 0 ∧
      next i ≤ 255 := by
  obtain ⟨next, hnext, hval⟩ :=
    conway_apply accumulate inp out width height lives i hlives hi
  refine ⟨next, hnext, ?_⟩
  rw [hval, conway_cell_eq accumulate inp width height _ i hw hh
    (lt_of_lt_loop_bound _ _ _ hi), if_pos halive, if_neg hacc, if_pos hcount,
    decay_value (inp i) (255 / lives) hcell (step_le lives)]
  generalize 255 / lives = step
  omega

theorem conway_decay_saturates_witness :
    (2 < 2 ^ 32 ∧ 2 < 2 ^ 32 ∧ 0 < (2 * 2) % 2 ^ 32 ∧ 1 ≤ 12 ∧ grid_b 0 < 256 ∧
      grid_b 0 ≠ 0 ∧
      (live_neighbour_count grid_b 2 2 0 < 2 ∨ live_neighbour_count grid_b 2 2 0 > 3) ∧
      some 3 ≠ some (live_neighbour_count grid_b 2 2 0)) ∧
    ∃ next, conway (some 3) grid_b stale 2 2 12 = some next ∧
      (next 0 : Int) = max ((grid_b 0 : Int) - ((255 / 12 : Nat) : Int)) 0 ∧
      next 0 ≤ 255 :=
  ⟨by decide, conway_decay_saturates (some 3) grid_b stale 2 2 12 0 (by decide) (by decide)
    (by decide) (by decide) (by decide) (by decide) (by decide) (by decide)⟩

/-- C3: for every `lives ≥ 1` and every dead cell, `next` is `step = 255 / lives`
when the cell has exactly 3 live neighbours and `0` for every other count; the
birth value is 255 only for `lives = 1`. -/
theorem conway_birth_or_stay_dead (accumulate : Option Nat) (inp out : Nat → Nat)
    (width height lives i : Nat) (hw : width < 2 ^ 32) (hh : height < 2 ^ 32)
    (hi : i < (width * height) % 2 ^ 32) (hlives : 1 ≤ lives) (hdead : inp i = 0) :
    ∃ next, conway accumulate inp out width height lives = some next ∧
      (live_neighbour_count inp width height i = 3 → next i = 255 / lives) ∧
      (live_neighbour_count inp width height i ≠ 3 → next i = 0) ∧
      (255 / lives = 255 ↔ lives = 1) := by
  obtain ⟨next, hnext, hval⟩ :=
    conway_apply accumulate inp out width height lives i hlives hi
  refine ⟨next, hnext, ?_, ?_, ?_⟩
  · intro h3
    rw [hval, conway_cell_eq accumulate inp width height _ i hw hh
      (lt_of_lt_loop_bound _ _ _ hi), if_neg (by simp [hdead]), if_pos h3,
      birth_value _ (step_le lives)]
  · intro h3
    rw [hval, conway_cell_eq accumulate inp width height _ i hw hh
      (lt_of_lt_loop_bound _ _ _ hi), if_neg (by simp [hdead]), if_neg h3]
  · constructor
    · intro h
      by_contra hne
      have h2 : 2 ≤ lives := by omega
      have h3 : 255 / lives ≤ 255 / 2 := Nat.div_le_div_left h2 (by decide)
      have h4 : 255 / 2 = 127 := by decide
      omega
    · rintro rfl
      decide

theorem conway_birth_or_stay_dead_witness :
    (3 < 2 ^ 32 ∧ 3 < 2 ^ 32 ∧ 2 < (3 * 3) % 2 ^ 32 ∧ 1 ≤ 5 ∧ grid_a 2 = 0) ∧
    ∃ next, conway none grid_a stale 3 3 5 = some next ∧
      (live_neighbour_count grid_a 3 3 2 = 3 → next 2 = 255 / 5) ∧
      (live_neighbour_count grid_a 3 3 2 ≠ 3 → next 2 = 0) ∧
      (255 / 5 = 255 ↔ 5 = 1) :=
  ⟨by decide, conway_birth_or_stay_dead none grid_a stale 3 3 5 2 (by decide) (by decide)
    (by decide) (by decide) (by decide)⟩

/-- C4: for every `lives ≥ 1`, a live cell with exactly 2 or 3 live neighbours,
whose count is not an enabled accumulate threshold, keeps its energy:
`next = current`. -/
theorem conway_stable_survival (accumulate : Option Nat) (inp out : Nat → Nat)
    (width height lives i : Nat) (hw : width < 2 ^ 32) (hh : height < 2 ^ 32)
    (hi : i < (width * height) % 2 ^ 32) (hlives : 1 ≤ lives) (halive : inp i ≠ 0)
    (hcount : live_neighbour_count inp width height i = 2 ∨
      live_neighbour_count inp width height i = 3)
    (hacc : accumulate ≠ some (live_neighbour_count inp width height i)) :
    ∃ next, conway accumulate inp out width height lives = some next ∧
      next i = inp i := by
  obtain ⟨next, hnext, hval⟩ :=
    conway_apply accumulate inp out width height lives i hlives hi
  refine ⟨next, hnext, ?_⟩
  rw [hval, conway_cell_eq accumulate inp width height _ i hw hh
    (lt_of_lt_loop_bound _ _ _ hi), if_pos halive, if_neg hacc, if_neg (by omega)]

theorem conway_stable_survival_witness :
    (3 < 2 ^ 32 ∧ 3 < 2 ^ 32 ∧ 4 < (3 * 3) % 2 ^ 32 ∧ 1 ≤ 3 ∧ grid_a 4 ≠ 0 ∧
      (live_neighbour_count grid_a 3 3 4 = 2 ∨ live_neighbour_count grid_a 3 3 4 = 3) ∧
      some 2 ≠ some (live_neighbour_count grid_a 3 3 4)) ∧
    ∃ next, conway (some 2) grid_a stale 3 3 3 = some next ∧ next 4 = grid_a 4 :=
  ⟨by decide, conway_stable_survival (some 2) grid_a stale 3 3 3 4 (by decide) (by decide)
    (by decide) (by decide) (by decide) (by decide) (by decide)⟩

/-- C5: when `ACCUMULATE_ON` is defined as `t`, every live cell whose number of
live neighbours is `t` gets `min (current + step) 255`, for every `t`; the branch
comes before decay and survival. -/
theorem conway_accumulate_priority (t : Nat) (inp out : Nat → Nat)
    (width height lives i : Nat) (hw : width < 2 ^ 32) (hh : height < 2 ^ 32)
    (hi : i < (width * height) % 2 ^ 32) (hlives : 1 ≤ lives)
    (hcell : inp i < 256) (halive : inp i ≠ 0)
    (hcount : live_neighbour_count inp width height i = t) :
    ∃ next, conway (some t) inp out width height lives = some next ∧
      next i = min (inp i + 255 / lives) 255 := by
  obtain ⟨next, hnext, hval⟩ :=
    conway_apply (some t) inp out width height lives i hlives hi
  refine ⟨next, hnext, ?_⟩
  rw [hval, conway_cell_eq (some t) inp width height _ i hw hh
    (lt_of_lt_loop_bound _ _ _ hi), if_pos halive, if_pos (by rw [hcount]),
    growth_value (inp i) (255 / lives) hcell (step_le lives)]

theorem conway_accumulate_priority_witness :
    (3 < 2 ^ 32 ∧ 3 < 2 ^ 32 ∧ 4 < (3 * 3) % 2 ^ 32 ∧ 1 ≤ 5 ∧ grid_c 4 < 256 ∧
      grid_c 4 = 100 ∧ live_neighbour_count grid_c 3 3 4 = 2) ∧
    ∃ next, conway (some 2) grid_c stale 3 3 5 = some next ∧ next 4 = 151 :=
  ⟨by decide, by
    obtain ⟨next, hnext, hval⟩ := conway_accumulate_priority 2 grid_c stale 3 3 5 4
      (by decide) (by decide) (by decide) (by decide) (by decide) (by decide) (by decide)
    exact ⟨next, hnext, by rw [hval]; decide⟩⟩

/-! ## The executor -/

/-- C6, amended: locality. For every configuration and every index `i` the loop
visits, `i < (width * height) % 2^32` (every cell of the grid when
`width * height < 2^32`), if two source grids agree on the cell `i` and on every in-grid cell adjacent to
it (column and row each at distance at most 1), both calls leave the same value
in `next[i]`, whatever the two destination buffers held before and however the
source grids differ elsewhere. -/
theorem conway_locality (accumulate : Option Nat) (inp1 inp2 out1 out2 : Nat → Nat)
    (width height lives i : Nat) (hw : width < 2 ^ 32) (hh : height < 2 ^ 32)
    (hi : i < (width * height) % 2 ^ 32) (hlives : 1 ≤ lives)
    (hagree : ∀ cx cy : Nat, cx < width → cy < height →
      cx ≤ i % width + 1 → i % width ≤ cx + 1 → cy ≤ i / width + 1 → i / width ≤ cy + 1 →
      inp1 (cy * width + cx) = inp2 (cy * width + cx)) :
    ∃ next1 next2, conway accumulate inp1 out1 width height lives = some next1 ∧
      conway accumulate inp2 out2 width height lives = some next2 ∧
      next1 i = next2 i := by
  obtain ⟨next1, hnext1, hval1⟩ :=
    conway_apply accumulate inp1 out1 width height lives i hlives hi
  obtain ⟨next2, hnext2, hval2⟩ :=
    conway_apply accumulate inp2 out2 width height lives i hlives hi
  refine ⟨next1, next2, hnext1, hnext2, ?_⟩
  have hlt := lt_of_lt_loop_bound _ _ _ hi
  have hwpos : 0 < width := Nat.pos_of_ne_zero (by rintro rfl; simp at hlt)
  have hself : inp1 i = inp2 i := by
    have h := hagree (i % width) (i / width) (Nat.mod_lt _ hwpos)
      (Nat.div_lt_of_lt_mul hlt) (by omega) (by omega) (by omega) (by omega)
    have e : i / width * width + i % width = i := by
      rw [Nat.mul_comm]; exact Nat.div_add_mod i width
    rwa [e] at h
  rw [hval1, hval2, conway_cell_eq accumulate inp1 width height _ i hw hh hlt,
    conway_cell_eq accumulate inp2 width height _ i hw hh hlt,
    live_neighbour_count_congr inp1 inp2 width height i hagree, hself]

theorem conway_locality_witness :
    (4 < 2 ^ 32 ∧ 4 < 2 ^ 32 ∧ 0 < (4 * 4) % 2 ^ 32 ∧ 1 ≤ 3 ∧
      (∀ cx cy : Nat, cx < 4 → cy < 4 →
        cx ≤ 0 % 4 + 1 → 0 % 4 ≤ cx + 1 → cy ≤ 0 / 4 + 1 → 0 / 4 ≤ cy + 1 →
        grid_d (cy * 4 + cx) = grid_zero (cy * 4 + cx)) ∧
      grid_d 15 ≠ grid_zero 15) ∧
    ∃ next1 next2, conway (some 2) grid_d stale 4 4 3 = some next1 ∧
      conway (some 2) grid_zero grid_zero 4 4 3 = some next2 ∧
      next1 0 = next2 0 :=
  have hagree : ∀ cx cy : Nat, cx < 4 → cy < 4 →
      cx ≤ 0 % 4 + 1 → 0 % 4 ≤ cx + 1 → cy ≤ 0 / 4 + 1 → 0 / 4 ≤ cy + 1 →
      grid_d (cy * 4 + cx) = grid_zero (cy * 4 + cx) := by
    intro cx cy _ _ h1 _ h2 _
    have hne : cy * 4 + cx ≠ 15 := by omega
    simp [grid_d, grid_zero, hne]
  ⟨⟨by decide, by decide, by decide, by decide, hagree, by decide⟩,
    conway_locality (some 2) grid_d grid_zero stale grid_zero 4 4 3 0
      (by decide) (by decide) (by decide) (by decide) hagree⟩

/-- C7: order independence. Running the loop body over the indices `0, ..., n - 1`
in any permuted order, on a destination buffer separate from the source, leaves
the destination that the ascending order leaves; when `n` is the bound of the
loop, this is the destination that `conway` returns. -/
theorem conway_order_independent (accumulate : Option Nat) (inp out : Nat → Nat)
    (width height lives n : Nat) (order : List Nat) (hlives : 1 ≤ lives)
    (hperm : order.Perm (List.range n)) :
    order.foldl (conway_body accumulate inp width height (255 / lives)) out =
      (List.range n).foldl (conway_body accumulate inp width height (255 / lives)) out ∧
    (n = (width * height) % 2 ^ 32 →
      conway accumulate inp out width height lives =
        some (order.foldl (conway_body accumulate inp width height (255 / lives)) out)) := by
  have hfold : order.foldl (conway_body accumulate inp width height (255 / lives)) out =
      (List.range n).foldl (conway_body accumulate inp width height (255 / lives)) out := by
    funext j
    rw [foldl_conway_body_apply, foldl_conway_body_apply]
    have hmem : j ∈ order ↔ j ∈ List.range n := hperm.mem_iff
    by_cases hj : j ∈ order
    · rw [if_pos hj, if_pos (hmem.mp hj)]
    · rw [if_neg hj, if_neg (fun h => hj (hmem.mpr h))]
  refine ⟨hfold, fun hn => ?_⟩
  rw [conway_eq_some accumulate inp out width height lives hlives, hfold, hn]
  rfl

theorem conway_order_independent_witness :
    (1 ≤ 1 ∧ [3, 1, 0, 2].Perm (List.range 4)) ∧
    [3, 1, 0, 2].foldl (conway_body none grid_b 2 2 (255 / 1)) stale =
      (List.range 4).foldl (conway_body none grid_b 2 2 (255 / 1)) stale ∧
    (4 = (2 * 2) % 2 ^ 32 →
      conway none grid_b stale 2 2 1 =
        some ([3, 1, 0, 2].foldl (conway_body none grid_b 2 2 (255 / 1)) stale)) :=
  have hperm : [3, 1, 0, 2].Perm (List.range 4) := by decide
  ⟨⟨by decide, hperm⟩,
    conway_order_independent none grid_b stale 2 2 1 4 [3, 1, 0, 2] (by decide) hperm⟩

/-! ## The neighbour locator and the reads of the kernel -/

/-- C8: for every cell `(x, y)` of a grid (so `width ≥ 1` and `height ≥ 1`),
`get_valid_offsets` flags an offset `(dx, dy)` valid exactly when
`0 ≤ x + dx < width` and `0 ≤ y + dy < height`, and it returns the eight offsets
in one fixed order. -/
theorem get_valid_offsets_exact (width height x y : Nat)
    (hw : width < 2 ^ 32) (hh : height < 2 ^ 32) (hx : x < width) (hy : y < height) :
    (∀ p ∈ get_valid_offsets (x, y) width height,
      (p.1 = true ↔ 0 ≤ (x : Int) + p.2.1 ∧ (x : Int) + p.2.1 < width ∧
        0 ≤ (y : Int) + p.2.2 ∧ (y : Int) + p.2.2 < height)) ∧
    (get_valid_offsets (x, y) width height).map Prod.snd =
      [(-1, -1), (0, -1), (1, -1), (-1, 0), (1, 0), (-1, 1), (0, 1), (1, 1)] :=
  ⟨fun p hp => get_valid_offsets_flag width height x y hw hh hx hy p hp,
    get_valid_offsets_snd (x, y) width height⟩

theorem get_valid_offsets_exact_witness :
    (3 < 2 ^ 32 ∧ 2 < 2 ^ 32 ∧ 2 < 3 ∧ 0 < 2) ∧
    (∀ p ∈ get_valid_offsets (2, 0) 3 2,
      (p.1 = true ↔ 0 ≤ ((2 : Nat) : Int) + p.2.1 ∧ ((2 : Nat) : Int) + p.2.1 < (3 : Nat) ∧
        0 ≤ ((0 : Nat) : Int) + p.2.2 ∧ ((0 : Nat) : Int) + p.2.2 < (2 : Nat))) ∧
    (get_valid_offsets (2, 0) 3 2).map Prod.snd =
      [(-1, -1), (0, -1), (1, -1), (-1, 0), (1, 0), (-1, 1), (0, 1), (1, 1)] :=
  ⟨by decide, get_valid_offsets_exact 3 2 2 0 (by decide) (by decide) (by decide) (by decide)⟩

/-- C9, as stated, fails on the grid of a single cell: the cell is a corner and
`get_valid_offsets` flags none of the eight offsets valid. -/
theorem valid_count_single_cell :
    (0 < 1 ∧ 0 < 1) ∧ valid_count 0 0 1 1 = 0 ∧
      ¬ (valid_count 0 0 1 1 = 3 ∨ valid_count 0 0 1 1 = 5 ∨ valid_count 0 0 1 1 = 8) := by
  decide

/-- C9, amended: in a grid with `width ≥ 2` and `height ≥ 2` the number of
offsets flagged valid is 3 for a corner cell, 5 for an edge cell that is not a
corner and 8 for an interior cell; in a grid with `width = 1` or `height = 1` it
is at most 2. -/
theorem valid_count_classes (x y width height : Nat)
    (hw : width < 2 ^ 32) (hh : height < 2 ^ 32) (hx : x < width) (hy : y < height) :
    (2 ≤ width → 2 ≤ height →
      valid_count x y width height =
        if (x = 0 ∨ x = width - 1) ∧ (y = 0 ∨ y = height - 1) then 3
        else if (x = 0 ∨ x = width - 1) ∨ (y = 0 ∨ y = height - 1) then 5
        else 8) ∧
    (width = 1 ∨ height = 1 → valid_count x y width height ≤ 2) := by
  rw [valid_count_eq x y width height (by omega) hw (by omega) hh]
  constructor
  · intro hw2 hh2
    by_cases h1 : 0 < x <;> by_cases h2 : x < width - 1 <;> by_cases h3 : 0 < y <;>
      by_cases h4 : y < height - 1 <;> simp only [h1, h2, h3, h4, if_true, if_false] <;>
      split_ifs <;> omega
  · intro hthin
    by_cases h1 : 0 < x <;> by_cases h2 : x < width - 1 <;> by_cases h3 : 0 < y <;>
      by_cases h4 : y < height - 1 <;> simp only [h1, h2, h3, h4, if_true, if_false] <;>
      omega

theorem valid_count_classes_witness :
    (3 < 2 ^ 32 ∧ 2 < 2 ^ 32 ∧ 1 < 3 ∧ 0 < 2 ∧ 2 ≤ 3 ∧ 2 ≤ 2) ∧ valid_count 1 0 3 2 = 5 :=
  ⟨by decide,
    ((valid_count_classes 1 0 3 2 (by decide) (by decide) (by decide) (by decide)).1
      (by decide) (by decide)).trans (by decide)⟩

/-- C10: for every grid with `width, height < 2^32` and every index
`i < width * height` (in particular every loop index when the product fits in 32
bits), every index at which the loop body reads the source grid lies below
`width * height`; and the value of the loop body depends on the source grid
through these reads only. -/
theorem conway_reads_in_bounds (width height i : Nat)
    (hw : width < 2 ^ 32) (hh : height < 2 ^ 32) (hi : i < width * height) :
    (∀ j ∈ read_indices width height i, j < width * height) ∧
    (∀ (accumulate : Option Nat) (inp1 inp2 : Nat → Nat) (step : Nat),
      (∀ j ∈ read_indices width height i, inp1 j = inp2 j) →
      conway_cell accumulate inp1 width height step i =
        conway_cell accumulate inp2 width height step i) := by
  refine ⟨?_, fun accumulate inp1 inp2 step hagree =>
    conway_cell_footprint accumulate inp1 inp2 width height step i hagree⟩
  have h64 := mul_lt_u64 width height hw hh
  have hwpos : 0 < width := Nat.pos_of_ne_zero (by rintro rfl; simp at hi)
  have hx : i % width < width := Nat.mod_lt _ hwpos
  have hy : i / width < height := Nat.div_lt_of_lt_mul hi
  intro j hj
  unfold read_indices at hj
  rw [map_1d_to_2d_eq i width (by omega)] at hj
  simp only at hj
  rw [Nat.mod_eq_of_lt (show i % width < 2 ^ 32 by omega),
    Nat.mod_eq_of_lt (show i / width < 2 ^ 32 by omega)] at hj
  simp only [List.mem_append, List.mem_map, List.mem_filter, List.mem_singleton] at hj
  rcases hj with ⟨p, ⟨hp, hflag⟩, rfl⟩ | rfl
  · have hin := (get_valid_offsets_flag width height (i % width) (i / width) hw hh hx hy
      p hp).mp hflag
    exact (neighbour_index_eq width height (i % width) (i / width) p.2 hw hh hin).2
  · exact hi

theorem conway_reads_in_bounds_witness :
    (3 < 2 ^ 32 ∧ 3 < 2 ^ 32 ∧ 8 < 3 * 3) ∧
    (∀ j ∈ read_indices 3 3 8, j < 3 * 3) ∧
    (∀ (accumulate : Option Nat) (inp1 inp2 : Nat → Nat) (step : Nat),
      (∀ j ∈ read_indices 3 3 8, inp1 j = inp2 j) →
      conway_cell accumulate inp1 3 3 step 8 = conway_cell accumulate inp2 3 3 step 8) :=
  ⟨by decide, conway_reads_in_bounds 3 3 8 (by decide) (by decide) (by decide)⟩

/-! ## The coordinate mapper -/

/-- C11: for every `width ≥ 1` and every `u64` index, `map_2d_to_1d` applied to
the pair that `map_1d_to_2d` returns gives the index back. -/
theorem map_index_round_trip (index width : Nat) (hw : 1 ≤ width) (hi : index < 2 ^ 64) :
    map_2d_to_1d (map_1d_to_2d index width).1 (map_1d_to_2d index width).2 width = index := by
  have hmod : index % width < width := Nat.mod_lt _ hw
  have e : index / width * width + index % width = index := by
    rw [Nat.mul_comm]; exact Nat.div_add_mod index width
  rw [map_1d_to_2d_eq index width hi]
  unfold map_2d_to_1d
  simp only
  omega

theorem map_index_round_trip_witness :
    (1 ≤ 20 ∧ 63 < 2 ^ 64) ∧
    map_2d_to_1d (map_1d_to_2d 63 20).1 (map_1d_to_2d 63 20).2 20 = 63 :=
  ⟨by decide, map_index_round_trip 63 20 (by decide) (by decide)⟩

/-- Division and remainder of a row-major index. -/
theorem index_div_mod (x y width : Nat) (hx : x < width) :
    (y * width + x) % width = x ∧ (y * width + x) / width = y := by
  constructor
  · rw [Nat.add_comm, Nat.add_mul_mod_self_right, Nat.mod_eq_of_lt hx]
  · rw [Nat.add_comm, Nat.add_mul_div_right _ _ (by omega), Nat.div_eq_of_lt hx, Nat.zero_add]

/-- C12: for every cell `(x, y)` of a grid whose cell count is within the range of
`u64` indices, `map_1d_to_2d (map_2d_to_1d x y width) width` is `(x, y)`. -/
theorem map_coords_round_trip (x y width height : Nat) (hx : x < width) (hy : y < height)
    (hfit : width * height ≤ 2 ^ 64) :
    map_1d_to_2d (map_2d_to_1d x y width) width = (x, y) := by
  have hlt := cell_index_lt width height x y hx hy
  have h64 : y * width + x < 2 ^ 64 := by omega
  obtain ⟨hm, hd⟩ := index_div_mod x y width hx
  unfold map_2d_to_1d
  rw [Nat.mod_eq_of_lt h64, map_1d_to_2d_eq _ width h64, hm, hd]

theorem map_coords_round_trip_witness :
    (3 < 20 ∧ 2 < 20 ∧ 20 * 20 ≤ 2 ^ 64) ∧
    map_1d_to_2d (map_2d_to_1d 3 2 20) 20 = (3, 2) :=
  ⟨by decide, map_coords_round_trip 3 2 20 20 (by decide) (by decide) (by decide)⟩

/-- C13: for a grid with `width ≥ 1` and `height ≥ 1` whose indices are `u64`
values, `map_1d_to_2d` sends the indices below `width * height` into the grid,
sends distinct indices to distinct pairs, and reaches every pair of the grid. -/
theorem map_1d_to_2d_bijection (width height : Nat) (hw : 1 ≤ width) (hh : 1 ≤ height)
    (hfit : width * height ≤ 2 ^ 64) :
    (∀ i, i < width * height →
      (map_1d_to_2d i width).1 < width ∧ (map_1d_to_2d i width).2 < height) ∧
    (∀ i j, i < width * height → j < width * height →
      map_1d_to_2d i width = map_1d_to_2d j width → i = j) ∧
    (∀ x y, x < width → y < height →
      ∃ i, i < width * height ∧ map_1d_to_2d i width = (x, y)) := by
  have _hh := hh
  refine ⟨fun i hi => ?_, fun i j hi hj hij => ?_, fun x y hx hy => ?_⟩
  · rw [map_1d_to_2d_eq i width (by omega)]
    exact ⟨Nat.mod_lt _ hw, Nat.div_lt_of_lt_mul hi⟩
  · rw [map_1d_to_2d_eq i width (by omega), map_1d_to_2d_eq j width (by omega)] at hij
    simp only [Prod.mk.injEq] at hij
    rw [← Nat.div_add_mod i width, ← Nat.div_add_mod j width, hij.1, hij.2]
  · have hlt := cell_index_lt width height x y hx hy
    obtain ⟨hm, hd⟩ := index_div_mod x y width hx
    exact ⟨y * width + x, hlt, by rw [map_1d_to_2d_eq _ width (by omega), hm, hd]⟩

theorem map_1d_to_2d_bijection_witness :
    (1 ≤ 20 ∧ 1 ≤ 20 ∧ 20 * 20 ≤ 2 ^ 64) ∧
    (∀ i, i < 20 * 20 → (map_1d_to_2d i 20).1 < 20 ∧ (map_1d_to_2d i 20).2 < 20) ∧
    (∀ i j, i < 20 * 20 → j < 20 * 20 → map_1d_to_2d i 20 = map_1d_to_2d j 20 → i = j) ∧
    (∀ x y, x < 20 → y < 20 → ∃ i, i < 20 * 20 ∧ map_1d_to_2d i 20 = (x, y)) :=
  ⟨by decide, map_1d_to_2d_bijection 20 20 (by decide) (by decide) (by decide)⟩

/-! ## Decay over time and the bound of the loop -/

/-- The decay branch of the loop body stores `decay cell_status cell_life_value`. -/
theorem conway_cell_decay (accumulate : Option Nat) (inp : Nat → Nat)
    (width height step i : Nat) (halive : inp i ≠ 0)
    (hacc : accumulate ≠ some (living_neighbours inp width height i))
    (hcount : living_neighbours inp width height i < 2 ∨
      living_neighbours inp width height i > 3) :
    conway_cell accumulate inp width height step i = decay (inp i) step := by
  unfold conway_cell decay
  simp only
  rw [if_pos halive, if_neg hacc, if_pos hcount]

theorem decay_eq (c step : Nat) (hc : c < 256) (hs : step ≤ 255) : decay c step = c - step :=
  decay_value c step hc hs

/-- Repeated decay from full health: after `k` decays the energy is `255 - k * step`,
with the subtraction stopping at zero. -/
theorem iterate_decay (step k : Nat) (hs : step ≤ 255) :
    Nat.iterate (fun c => decay c step) k 255 = 255 - k * step := by
  induction k with
  | zero => simp
  | succ k ih =>
    rw [Function.iterate_succ_apply', ih, decay_eq _ _ (by omega) hs, Nat.succ_mul]
    omega

/-- C18: for `lives` in 1..255 and `step = 255 / lives`, each of the first `lives`
applications of the decay branch to a cell that starts at 255 finds the cell alive
and is not clamped, and together they leave energy `255 % lives`. So the cell is
dead after exactly `lives` decays iff `lives` divides 255; otherwise it is still
alive then and dies after more decays. -/
theorem decay_lifetime (lives : Nat) (h1 : 1 ≤ lives) (h255 : lives ≤ 255) :
    (∀ k, k < lives →
      0 < Nat.iterate (fun c => decay c (255 / lives)) k 255 ∧
      clamp (to_i16 ((Nat.iterate (fun c => decay c (255 / lives)) k 255 : Nat) -
        ((255 / lives : Nat) : Int))) 0 255 =
      (Nat.iterate (fun c => decay c (255 / lives)) k 255 : Nat) -
        ((255 / lives : Nat) : Int)) ∧
    Nat.iterate (fun c => decay c (255 / lives)) lives 255 = 255 % lives ∧
    (Nat.iterate (fun c => decay c (255 / lives)) lives 255 = 0 ↔ lives ∣ 255) ∧
    (¬ lives ∣ 255 →
      0 < Nat.iterate (fun c => decay c (255 / lives)) lives 255 ∧
      ∃ k, lives < k ∧ Nat.iterate (fun c => decay c (255 / lives)) k 255 = 0) := by
  have hs : 255 / lives ≤ 255 := step_le lives
  have hpos : 1 ≤ 255 / lives := (Nat.le_div_iff_mul_le (by omega)).mpr (by omega)
  have hmul : lives * (255 / lives) + 255 % lives = 255 := Nat.div_add_mod 255 lives
  have hend : Nat.iterate (fun c => decay c (255 / lives)) lives 255 = 255 % lives := by
    rw [iterate_decay _ _ hs]; omega
  have hdvd : 255 % lives = 0 ↔ lives ∣ 255 := Nat.dvd_iff_mod_eq_zero.symm
  refine ⟨fun k hk => ?_, hend, by rw [hend]; exact hdvd, fun hnd => ?_⟩
  · rw [iterate_decay _ _ hs]
    have hk1 : (k + 1) * (255 / lives) ≤ lives * (255 / lives) :=
      Nat.mul_le_mul_right _ (by omega)
    have hk2 : (k + 1) * (255 / lives) = k * (255 / lives) + 255 / lives := Nat.succ_mul _ _
    generalize 255 / lives = step at *
    generalize k * step = d at *
    refine ⟨by omega, ?_⟩
    unfold clamp to_i16
    split_ifs <;> omega
  · have hne : 255 % lives ≠ 0 := fun h => hnd (hdvd.mp h)
    have hlt : lives < 255 := by
      rcases Nat.lt_or_ge lives 255 with h | h
      · exact h
      · exact absurd (by rw [show lives = 255 by omega]) hnd
    refine ⟨by rw [hend]; omega, 255, hlt, ?_⟩
    rw [iterate_decay _ _ hs]
    have h3 : 255 * 1 ≤ 255 * (255 / lives) := Nat.mul_le_mul_left _ hpos
    omega

theorem decay_lifetime_witness :
    (1 ≤ 2 ∧ 2 ≤ 255) ∧
    Nat.iterate (fun c => decay c (255 / 2)) 2 255 = 1 ∧
    (Nat.iterate (fun c => decay c (255 / 2)) 2 255 = 0 ↔ 2 ∣ 255) :=
  ⟨by decide,
    ((decay_lifetime 2 (by decide) (by decide)).2.1).trans (by decide),
    (decay_lifetime 2 (by decide) (by decide)).2.2.1⟩

/-- C19, amended: with `ACCUMULATE_ON` not defined and `lives ≥ 1`, at every index
the loop visits, `i < (width * height) % 2^32` (every cell of the grid when
`width * height < 2^32`), a live cell does not gain energy, a dead cell gets `0` or
`step = 255 / lives`, and so `next[i] ≤ max (current[i]) step`. -/
theorem conway_decay_only_bound (inp out : Nat → Nat) (width height lives i : Nat)
    (hi : i < (width * height) % 2 ^ 32) (hlives : 1 ≤ lives) (hcell : inp i < 256) :
    ∃ next, conway none inp out width height lives = some next ∧
      (inp i ≠ 0 → next i ≤ inp i) ∧
      (inp i = 0 → next i = 0 ∨ next i = 255 / lives) ∧
      next i ≤ max (inp i) (255 / lives) := by
  obtain ⟨next, hnext, hval⟩ := conway_apply none inp out width height lives i hlives hi
  refine ⟨next, hnext, ?_⟩
  have hd := decay_value (inp i) (255 / lives) hcell (step_le lives)
  have hb := birth_value (255 / lives) (step_le lives)
  rw [hval]
  unfold conway_cell
  simp only [hd, hb]
  generalize 255 / lives = step
  generalize living_neighbours inp width height i = n
  split_ifs <;> simp_all

theorem conway_decay_only_bound_witness :
    (0 < (2 * 2) % 2 ^ 32 ∧ 1 ≤ 12 ∧ grid_b 0 < 256) ∧
    ∃ next, conway none grid_b stale 2 2 12 = some next ∧
      (grid_b 0 ≠ 0 → next 0 ≤ grid_b 0) ∧
      (grid_b 0 = 0 → next 0 = 0 ∨ next 0 = 255 / 12) ∧
      next 0 ≤ max (grid_b 0) (255 / 12) :=
  ⟨by decide, conway_decay_only_bound grid_b stale 2 2 12 0 (by decide) (by decide)
    (by decide)⟩

/-- C20: the loop of `conway` runs over the indices below `width * height` reduced
modulo `2^32`: the destination gets the value of the loop body at these indices
and keeps its previous content at every other index, in particular at the cells
from that bound up to `width * height - 1` when the product does not fit. -/
theorem conway_loop_bound_u32 (accumulate : Option Nat) (inp out : Nat → Nat)
    (width height lives : Nat) (hlives : 1 ≤ lives) :
    ∃ next, conway accumulate inp out width height lives = some next ∧
      next = (List.range ((width * height) % 2 ^ 32)).foldl
        (conway_body accumulate inp width height (255 / lives)) out ∧
      (∀ i, i < (width * height) % 2 ^ 32 →
        next i = conway_cell accumulate inp width height (255 / lives) i) ∧
      (∀ i, (width * height) % 2 ^ 32 ≤ i → next i = out i) := by
  have hb : loop_bound width height = (width * height) % 2 ^ 32 := rfl
  refine ⟨_, conway_eq_some accumulate inp out width height lives hlives, by rw [hb],
    fun i hi => ?_, fun i hi => ?_⟩
  · rw [foldl_conway_body_apply, if_pos (List.mem_range.mpr (by rw [hb]; exact hi))]
  · rw [foldl_conway_body_apply, if_neg (fun h => by
      have hlt := List.mem_range.mp h
      rw [hb] at hlt
      omega)]

theorem conway_loop_bound_u32_witness :
    (1 ≤ 1 ∧ 2 ^ 32 ≤ 65536 * 65536 ∧ (65536 * 65536) % 2 ^ 32 = 0) ∧
    ∃ next, conway none grid_a stale 65536 65536 1 = some next ∧ next 0 = stale 0 := by
  refine ⟨by decide, ?_⟩
  obtain ⟨next, hnext, _, _, hkeep⟩ :=
    conway_loop_bound_u32 none grid_a stale 65536 65536 1 (by decide)
  exact ⟨next, hnext, hkeep 0 (by decide)⟩

/-! ## Whole generations -/

/-- The reads of the loop body at a cell of the grid stay inside the grid. -/
theorem read_indices_lt (width height i : Nat)
    (hw : width < 2 ^ 32) (hh : height < 2 ^ 32) (hi : i < width * height) :
    ∀ j ∈ read_indices width height i, j < width * height := by
  have h64 := mul_lt_u64 width height hw hh
  have hwpos : 0 < width := Nat.pos_of_ne_zero (by rintro rfl; simp at hi)
  have hx : i % width < width := Nat.mod_lt _ hwpos
  have hy : i / width < height := Nat.div_lt_of_lt_mul hi
  intro j hj
  unfold read_indices at hj
  rw [map_1d_to_2d_eq i width (by omega)] at hj
  simp only at hj
  rw [Nat.mod_eq_of_lt (show i % width < 2 ^ 32 by omega),
    Nat.mod_eq_of_lt (show i / width < 2 ^ 32 by omega)] at hj
  simp only [List.mem_append, List.mem_map, List.mem_filter, List.mem_singleton] at hj
  rcases hj with ⟨p, ⟨hp, hflag⟩, rfl⟩ | rfl
  · have hin := (get_valid_offsets_flag width height (i % width) (i / width) hw hh hx hy
      p hp).mp hflag
    exact (neighbour_index_eq width height (i % width) (i / width) p.2 hw hh hin).2
  · exact hi

/-- One call of `conway` on a source that holds the grid `g`, when the loop body
maps `g` to `g1` cell by cell: the destination then holds `g1`. -/
theorem conway_step_grid (accumulate : Option Nat) (g g1 inp out : Nat → Nat)
    (width height lives : Nat) (hw : width < 2 ^ 32) (hh : height < 2 ^ 32)
    (hfit : width * height < 2 ^ 32) (hlives : 1 ≤ lives)
    (hin : ∀ j, j < width * height → inp j = g j)
    (hstep : ∀ i, i < width * height →
      conway_cell accumulate g width height (255 / lives) i = g1 i) :
    ∃ next, conway accumulate inp out width height lives = some next ∧
      ∀ i, i < width * height → next i = g1 i := by
  refine ⟨_, conway_eq_some accumulate inp out width height lives hlives, fun i hi => ?_⟩
  have hb : loop_bound width height = width * height := Nat.mod_eq_of_lt hfit
  rw [foldl_conway_body_apply, if_pos (List.mem_range.mpr (by rw [hb]; exact hi)),
    conway_cell_footprint accumulate inp g width height _ i
      (fun j hj => hin j (read_indices_lt width height i hw hh hi j hj))]
  exact hstep i hi

theorem generations_succ (accumulate : Option Nat) (width height lives k : Nat)
    (last_frame this_frame next : Nat → Nat)
    (h : conway accumulate last_frame this_frame width height lives = some next) :
    generations accumulate width height lives (k + 1) last_frame this_frame =
      generations accumulate width height lives k next last_frame := by
  simp only [generations, h]

set_option maxRecDepth 100000 in
theorem glider_step_0 : ∀ i, i < 20 * 20 →
    conway_cell none (grid_of_cells 20 glider_cells) 20 20 (255 / 1) i =
      grid_of_cells 20 glider_cells_1 i := by
  decide

/-! ## The block and the glider -/

theorem in_span_zero (b x : Nat) : in_span b x 0 = true ↔ x = b ∨ x = b + 1 := by
  unfold in_span
  simp only [decide_eq_true_eq]
  omega

theorem in_span_pattern (b x : Nat) :
    ¬ (in_span b x (-1) = true ∧ in_span b x 1 = true) ∧
    (in_span b x 0 = true → in_span b x (-1) = true ∨ in_span b x 1 = true) := by
  unfold in_span
  simp only [decide_eq_true_eq]
  omega

/-- The count of live neighbours around a 2×2 square, from the columns and rows
that meet the square: it is 3 exactly on the cells of the square. -/
theorem block_count_bool : ∀ a1 a2 a3 b1 b2 b3 : Bool,
    ¬ (a1 = true ∧ a3 = true) → (a2 = true → a1 = true ∨ a3 = true) →
    ¬ (b1 = true ∧ b3 = true) → (b2 = true → b1 = true ∨ b3 = true) →
    ([a1 && b1, a1 && b2, a1 && b3, a2 && b1, a2 && b3, a3 && b1, a3 && b2,
      a3 && b3].countP (fun t => t) = 3 ↔ (a2 = true ∧ b2 = true)) := by
  decide

/-- The cells of the grid that holds a single 2×2 square. -/
theorem grid_of_cells_block (width bcol brow cx cy : Nat) (hcx : cx < width)
    (h64 : cy * width + cx < 2 ^ 64) :
    grid_of_cells width (block_cells bcol brow) (cy * width + cx) =
      if (cx = bcol ∨ cx = bcol + 1) ∧ (cy = brow ∨ cy = brow + 1) then 255 else 0 := by
  obtain ⟨hm, hd⟩ := index_div_mod cx cy width hcx
  unfold grid_of_cells block_cells
  rw [map_1d_to_2d_eq _ width h64, hm, hd]
  simp only [List.mem_cons, Prod.mk.injEq, List.mem_singleton, List.not_mem_nil, or_false]
  by_cases h : (cx = bcol ∨ cx = bcol + 1) ∧ (cy = brow ∨ cy = brow + 1)
  · rw [if_pos h, if_pos (by omega)]
  · rw [if_neg h, if_neg (by omega)]

theorem block_live_at (width height bcol brow x y : Nat)
    (hw : width < 2 ^ 32) (hh : height < 2 ^ 32)
    (hb : bcol + 1 < width) (hr : brow + 1 < height) (d : Int × Int) :
    live_at (grid_of_cells width (block_cells bcol brow)) width height x y d =
      (in_span bcol x d.1 && in_span brow y d.2) := by
  have h64 := mul_lt_u64 width height hw hh
  unfold live_at in_span
  by_cases hin : in_grid width height (x + d.1) (y + d.2)
  · obtain ⟨h1, h2, h3, h4⟩ := hin
    obtain ⟨cx, hcx⟩ := Int.eq_ofNat_of_zero_le h1
    obtain ⟨cy, hcy⟩ := Int.eq_ofNat_of_zero_le h3
    have hcxw : cx < width := by omega
    have hcyh : cy < height := by omega
    have hlt := cell_index_lt width height cx cy hcxw hcyh
    have hin2 : in_grid width height (cx : Int) (cy : Int) := by
      unfold in_grid; omega
    rw [hcx, hcy, index_toNat, grid_of_cells_block width bcol brow cx cy hcxw (by omega)]
    by_cases hc : (cx = bcol ∨ cx = bcol + 1) ∧ (cy = brow ∨ cy = brow + 1)
    · have e1 : ((bcol : Int) ≤ cx ∧ (cx : Int) ≤ bcol + 1) := by omega
      have e2 : ((brow : Int) ≤ cy ∧ (cy : Int) ≤ brow + 1) := by omega
      simp [hc, hin2, e1, e2]
    · have e : ¬ (((bcol : Int) ≤ cx ∧ (cx : Int) ≤ bcol + 1) ∧
          ((brow : Int) ≤ cy ∧ (cy : Int) ≤ brow + 1)) := by omega
      rw [if_neg hc]
      simp only [ne_eq, not_true_eq_false, decide_False, Bool.and_false]
      symm
      rw [← Bool.decide_and, decide_eq_false_iff_not]
      exact e
  · have e : ¬ (((bcol : Int) ≤ x + d.1 ∧ (x : Int) + d.1 ≤ bcol + 1) ∧
        ((brow : Int) ≤ y + d.2 ∧ (y : Int) + d.2 ≤ brow + 1)) := by
      unfold in_grid at hin; omega
    simp only [hin, decide_False, Bool.false_and]
    symm
    rw [← Bool.decide_and, decide_eq_false_iff_not]
    exact e

/-- Around a 2×2 square inside the grid, a cell has exactly 3 live neighbours iff
it is one of the four cells of the square. -/
theorem block_count (width height bcol brow i : Nat)
    (hw : width < 2 ^ 32) (hh : height < 2 ^ 32)
    (hb : bcol + 1 < width) (hr : brow + 1 < height) :
    live_neighbour_count (grid_of_cells width (block_cells bcol brow)) width height i = 3 ↔
      (i % width = bcol ∨ i % width = bcol + 1) ∧
        (i / width = brow ∨ i / width = brow + 1) := by
  unfold live_neighbour_count
  rw [List.countP_congr (fun d _ => by
    rw [block_live_at width height bcol brow (i % width) (i / width) hw hh hb hr d])]
  obtain ⟨pa1, pa2⟩ := in_span_pattern bcol (i % width)
  obtain ⟨pb1, pb2⟩ := in_span_pattern brow (i / width)
  rw [← in_span_zero, ← in_span_zero]
  have key := block_count_bool (in_span bcol (i % width) (-1)) (in_span bcol (i % width) 0)
    (in_span bcol (i % width) 1) (in_span brow (i / width) (-1)) (in_span brow (i / width) 0)
    (in_span brow (i / width) 1) pa1 pa2 pb1 pb2
  rw [← key]
  simp only [moore_offsets, List.countP_cons, List.countP_nil]

/-- With `lives = 1` and no accumulate threshold, the loop body leaves every cell
of the grid that holds a single 2×2 square as it is. -/
theorem block_cell_fixed (width height bcol brow i : Nat)
    (hw : width < 2 ^ 32) (hh : height < 2 ^ 32)
    (hb : bcol + 1 < width) (hr : brow + 1 < height) (hi : i < width * height) :
    conway_cell none (grid_of_cells width (block_cells bcol brow)) width height (255 / 1) i =
      grid_of_cells width (block_cells bcol brow) i := by
  have h64 := mul_lt_u64 width height hw hh
  have hcount := block_count width height bcol brow i hw hh hb hr
  have hx : i % width < width := Nat.mod_lt _ (by omega)
  have e : i / width * width + i % width = i := by
    rw [Nat.mul_comm]; exact Nat.div_add_mod i width
  have hval := grid_of_cells_block width bcol brow (i % width) (i / width) hx (by omega)
  rw [e] at hval
  rw [conway_cell_eq none _ width height _ i hw hh hi]
  by_cases hc : (i % width = bcol ∨ i % width = bcol + 1) ∧
      (i / width = brow ∨ i / width = brow + 1)
  · have h3 := hcount.mpr hc
    rw [if_pos hc] at hval
    rw [hval, h3]
    simp
  · have h3 : ¬ live_neighbour_count (grid_of_cells width (block_cells bcol brow))
        width height i = 3 := fun h => hc (hcount.mp h)
    rw [if_neg hc] at hval
    rw [hval, if_neg (by simp), if_neg h3]

/-- A grid that one call of `conway` maps to itself stays the same over any number
of iterations of the frame loop. -/
theorem generations_fixed (accumulate : Option Nat) (g : Nat → Nat) (width height lives : Nat)
    (hfix : ∀ inp out : Nat → Nat, (∀ j, j < width * height → inp j = g j) →
      ∃ next, conway accumulate inp out width height lives = some next ∧
        ∀ i, i < width * height → next i = g i)
    (k : Nat) (inp out : Nat → Nat) (hin : ∀ j, j < width * height → inp j = g j) :
    ∃ gk, generations accumulate width height lives k inp out = some gk ∧
      ∀ i, i < width * height → gk i = g i := by
  induction k generalizing inp out with
  | zero => exact ⟨inp, rfl, hin⟩
  | succ k ih =>
    obtain ⟨next, hnext, hval⟩ := hfix inp out hin
    rw [generations_succ accumulate width height lives k inp out next hnext]
    exact ih next inp hval

/-- C15, amended: with `lives = 1` and `ACCUMULATE_ON` not defined, a grid with
`width * height < 2^32` whose only live cells are a 2×2 square of energy 255,
anywhere inside it (edges and corners included), is mapped to itself by one call
of `conway`, and so by `k` generations for every `k`. -/
theorem block_still_life (inp out : Nat → Nat) (width height bcol brow k : Nat)
    (hw : width < 2 ^ 32) (hh : height < 2 ^ 32) (hfit : width * height < 2 ^ 32)
    (hb : bcol + 1 < width) (hr : brow + 1 < height)
    (hin : ∀ j, j < width * height → inp j = grid_of_cells width (block_cells bcol brow) j) :
    (∃ next, conway none inp out width height 1 = some next ∧
      ∀ i, i < width * height → next i = inp i) ∧
    (∃ gk, generations none width height 1 k inp out = some gk ∧
      ∀ i, i < width * height → gk i = inp i) := by
  have hfix : ∀ inp out : Nat → Nat,
      (∀ j, j < width * height → inp j = grid_of_cells width (block_cells bcol brow) j) →
      ∃ next, conway none inp out width height 1 = some next ∧
        ∀ i, i < width * height → next i = grid_of_cells width (block_cells bcol brow) i :=
    fun inp out hin => conway_step_grid none _ _ inp out width height 1 hw hh hfit
      (by decide) hin
      (fun i hi => block_cell_fixed width height bcol brow i hw hh hb hr hi)
  constructor
  · obtain ⟨next, hnext, hval⟩ := hfix inp out hin
    exact ⟨next, hnext, fun i hi => by rw [hval i hi, hin i hi]⟩
  · obtain ⟨gk, hgk, hval⟩ := generations_fixed none _ width height 1 hfix k inp out hin
    exact ⟨gk, hgk, fun i hi => by rw [hval i hi, hin i hi]⟩

theorem block_still_life_witness :
    (3 < 2 ^ 32 ∧ 2 < 2 ^ 32 ∧ 3 * 2 < 2 ^ 32 ∧ 1 + 1 < 3 ∧ 0 + 1 < 2 ∧
      ∀ j, j < 3 * 2 →
        grid_of_cells 3 (block_cells 1 0) j = grid_of_cells 3 (block_cells 1 0) j) ∧
    (∃ next, conway none (grid_of_cells 3 (block_cells 1 0)) stale 3 2 1 = some next ∧
      ∀ i, i < 3 * 2 → next i = grid_of_cells 3 (block_cells 1 0) i) ∧
    (∃ gk, generations none 3 2 1 5 (grid_of_cells 3 (block_cells 1 0)) stale = some gk ∧
      ∀ i, i < 3 * 2 → gk i = grid_of_cells 3 (block_cells 1 0) i) :=
  ⟨⟨by decide, by decide, by decide, by decide, by decide, fun _ _ => rfl⟩,
    block_still_life (grid_of_cells 3 (block_cells 1 0)) stale 3 2 1 0 5 (by decide)
      (by decide) (by decide) (by decide) (by decide) (fun _ _ => rfl)⟩

set_option maxRecDepth 100000 in
theorem glider_step_1 : ∀ i, i < 20 * 20 →
    conway_cell none (grid_of_cells 20 glider_cells_1) 20 20 (255 / 1) i =
      grid_of_cells 20 glider_cells_2 i := by
  decide

set_option maxRecDepth 100000 in
theorem glider_step_2 : ∀ i, i < 20 * 20 →
    conway_cell none (grid_of_cells 20 glider_cells_2) 20 20 (255 / 1) i =
      grid_of_cells 20 glider_cells_3 i := by
  decide

set_option maxRecDepth 100000 in
theorem glider_step_3 : ∀ i, i < 20 * 20 →
    conway_cell none (grid_of_cells 20 glider_cells_3) 20 20 (255 / 1) i =
      grid_of_cells 20 (translate_cells glider_cells) i := by
  decide

/-- C14: with `lives = 1` and `ACCUMULATE_ON` not defined, four generations on the
20×20 grid whose only live cells are the glider (2,1), (3,2), (1,3), (2,3), (3,3),
at energy 255, give the grid whose only live cells are these five cells moved by
(1,1), at energy 255. -/
theorem glider_translates (out : Nat → Nat) :
    ∃ g4, generations none 20 20 1 4 (grid_of_cells 20 glider_cells) out = some g4 ∧
      ∀ i, i < 20 * 20 → g4 i = grid_of_cells 20 (translate_cells glider_cells) i := by
  obtain ⟨g1, h1, v1⟩ := conway_step_grid none (grid_of_cells 20 glider_cells) _
    (grid_of_cells 20 glider_cells) out 20 20 1 (by decide) (by decide) (by decide)
    (by decide) (fun _ _ => rfl) glider_step_0
  obtain ⟨g2, h2, v2⟩ := conway_step_grid none (grid_of_cells 20 glider_cells_1) _
    g1 (grid_of_cells 20 glider_cells) 20 20 1 (by decide) (by decide) (by decide)
    (by decide) v1 glider_step_1
  obtain ⟨g3, h3, v3⟩ := conway_step_grid none (grid_of_cells 20 glider_cells_2) _
    g2 g1 20 20 1 (by decide) (by decide) (by decide) (by decide) v2 glider_step_2
  obtain ⟨g4, h4, v4⟩ := conway_step_grid none (grid_of_cells 20 glider_cells_3) _
    g3 g2 20 20 1 (by decide) (by decide) (by decide) (by decide) v3 glider_step_3
  refine ⟨g4, ?_, v4⟩
  rw [generations_succ none 20 20 1 3 _ _ g1 h1, generations_succ none 20 20 1 2 _ _ g2 h2,
    generations_succ none 20 20 1 1 _ _ g3 h3, generations_succ none 20 20 1 0 _ _ g4 h4]
  rfl

/-! ## The kernel in a flat memory -/

/-- The memory after the loop body has run over the indices of `l`, all inside the
grid, when the source and destination buffers do not overlap: every address
outside the written cells keeps its content, and every written cell holds the
value computed from the source as it was before the loop. -/
theorem foldl_conway_mem_body (accumulate : Option Nat) (src dst width height step : Nat)
    (mem : Nat → Nat) (hw : width < 2 ^ 32) (hh : height < 2 ^ 32)
    (hsep : src + width * height ≤ dst ∨ dst + width * height ≤ src)
    (l : List Nat) (hl : ∀ i ∈ l, i < width * height) :
    (∀ a, (∀ i ∈ l, a ≠ dst + i) →
      (l.foldl (conway_mem_body accumulate src dst width height step) mem) a = mem a) ∧
    (∀ i ∈ l,
      (l.foldl (conway_mem_body accumulate src dst width height step) mem) (dst + i) =
        conway_cell accumulate (fun k => mem (src + k)) width height step i) := by
  induction l using List.reverseRecOn with
  | nil => simp
  | append_singleton l x ih =>
    have hl1 : ∀ i ∈ l, i < width * height := fun i hi => hl i (by simp [hi])
    have hx : x < width * height := hl x (by simp)
    obtain ⟨ih1, ih2⟩ := ih hl1
    have hsrc : ∀ j ∈ read_indices width height x,
        (l.foldl (conway_mem_body accumulate src dst width height step) mem) (src + j) =
          mem (src + j) := by
      intro j hj
      have hjlt := read_indices_lt width height x hw hh hx j hj
      exact ih1 (src + j) (fun i hi => by have := hl1 i hi; omega)
    have hlast : conway_cell accumulate
        (fun k => (l.foldl (conway_mem_body accumulate src dst width height step) mem) (src + k))
        width height step x =
        conway_cell accumulate (fun k => mem (src + k)) width height step x :=
      conway_cell_footprint accumulate _ _ width height step x hsrc
    constructor
    · intro a ha
      rw [List.foldl_append, List.foldl_cons, List.foldl_nil, conway_mem_body,
        Function.update_noteq (ha x (by simp))]
      exact ih1 a (fun i hi => ha i (by simp [hi]))
    · intro i hi
      rw [List.foldl_append, List.foldl_cons, List.foldl_nil, conway_mem_body]
      by_cases hix : i = x
      · subst hix
        rw [Function.update_same, hlast]
      · rw [Function.update_noteq (by omega)]
        rcases List.mem_append.mp hi with h | h
        · exact ih2 i h
        · exact absurd (List.mem_singleton.mp h) hix

theorem conway_mem_eq_some (accumulate : Option Nat) (src dst width height lives : Nat)
    (mem : Nat → Nat) (hlives : 1 ≤ lives) :
    conway_mem accumulate src dst width height lives mem =
      some ((List.range (loop_bound width height)).foldl
        (conway_mem_body accumulate src dst width height (255 / lives)) mem) := by
  unfold conway_mem
  rw [if_neg (by omega)]

/-- C16: for a grid whose cell count fits in 32 bits, with source and destination
buffers that do not overlap, one call of `conway` runs the assignment to `out[i]`
exactly once for every `i < width * height`; the destination then holds the
result of the kernel on the source, the same for every prior content of the
destination; the source and every other address keep their content. -/
theorem conway_full_overwrite (accumulate : Option Nat) (mem : Nat → Nat)
    (src dst width height lives : Nat) (hw : width < 2 ^ 32) (hh : height < 2 ^ 32)
    (hfit : width * height < 2 ^ 32) (hlives : 1 ≤ lives)
    (hsep : src + width * height ≤ dst ∨ dst + width * height ≤ src) :
    (∀ i, i < width * height → (List.range (loop_bound width height)).count i = 1) ∧
    ∃ after, conway_mem accumulate src dst width height lives mem = some after ∧
      (∃ next, conway accumulate (fun k => mem (src + k)) (fun k => mem (dst + k))
          width height lives = some next ∧
        ∀ i, i < width * height → after (dst + i) = next i) ∧
      (∀ mem2 : Nat → Nat, (∀ a, (a < dst ∨ dst + width * height ≤ a) → mem2 a = mem a) →
        ∃ after2, conway_mem accumulate src dst width height lives mem2 = some after2 ∧
          ∀ i, i < width * height → after2 (dst + i) = after (dst + i)) ∧
      (∀ k, k < width * height → after (src + k) = mem (src + k)) ∧
      (∀ a, (a < dst ∨ dst + width * height ≤ a) → after a = mem a) := by
  have hb : loop_bound width height = width * height := Nat.mod_eq_of_lt hfit
  have hrange : ∀ i ∈ List.range (loop_bound width height), i < width * height :=
    fun i hi => by rw [hb] at hi; exact List.mem_range.mp hi
  have hmemr : ∀ i, i < width * height → i ∈ List.range (loop_bound width height) :=
    fun i hi => by rw [hb]; exact List.mem_range.mpr hi
  have hframe : ∀ (m : Nat → Nat) (a : Nat), (a < dst ∨ dst + width * height ≤ a) →
      ((List.range (loop_bound width height)).foldl
        (conway_mem_body accumulate src dst width height (255 / lives)) m) a = m a :=
    fun m a ha => (foldl_conway_mem_body accumulate src dst width height (255 / lives) m
      hw hh hsep _ hrange).1 a (fun i hi => by have := hrange i hi; omega)
  have hcell : ∀ (m : Nat → Nat) (i : Nat), i < width * height →
      ((List.range (loop_bound width height)).foldl
        (conway_mem_body accumulate src dst width height (255 / lives)) m) (dst + i) =
      conway_cell accumulate (fun k => m (src + k)) width height (255 / lives) i :=
    fun m i hi => (foldl_conway_mem_body accumulate src dst width height (255 / lives) m
      hw hh hsep _ hrange).2 i (hmemr i hi)
  refine ⟨fun i hi => ?_, _, conway_mem_eq_some accumulate src dst width height lives mem
    hlives, ?_, fun mem2 h2 => ?_, fun k hk => ?_, fun a ha => hframe mem a ha⟩
  · rw [hb]
    exact List.count_eq_one_of_mem (List.nodup_range _) (List.mem_range.mpr hi)
  · refine ⟨_, conway_eq_some accumulate _ _ width height lives hlives, fun i hi => ?_⟩
    rw [hcell mem i hi, foldl_conway_body_apply, if_pos (hmemr i hi)]
  · refine ⟨_, conway_mem_eq_some accumulate src dst width height lives mem2 hlives,
      fun i hi => ?_⟩
    rw [hcell mem2 i hi, hcell mem i hi]
    exact conway_cell_footprint accumulate _ _ width height _ i (fun j hj => by
      have hjlt := read_indices_lt width height i hw hh hi j hj
      exact h2 (src + j) (by omega))
  · exact hframe mem (src + k) (by omega)

theorem conway_full_overwrite_witness :
    (2 < 2 ^ 32 ∧ 2 < 2 ^ 32 ∧ 2 * 2 < 2 ^ 32 ∧ 1 ≤ 1 ∧
      (0 + 2 * 2 ≤ 4 ∨ 4 + 2 * 2 ≤ 0)) ∧
    (∀ i, i < 2 * 2 → (List.range (loop_bound 2 2)).count i = 1) ∧
    ∃ after, conway_mem none 0 4 2 2 1 memory_b = some after ∧
      (∃ next, conway none (fun k => memory_b (0 + k)) (fun k => memory_b (4 + k))
          2 2 1 = some next ∧
        ∀ i, i < 2 * 2 → after (4 + i) = next i) ∧
      (∀ mem2 : Nat → Nat, (∀ a, (a < 4 ∨ 4 + 2 * 2 ≤ a) → mem2 a = memory_b a) →
        ∃ after2, conway_mem none 0 4 2 2 1 mem2 = some after2 ∧
          ∀ i, i < 2 * 2 → after2 (4 + i) = after (4 + i)) ∧
      (∀ k, k < 2 * 2 → after (0 + k) = memory_b (0 + k)) ∧
      (∀ a, (a < 4 ∨ 4 + 2 * 2 ≤ a) → after a = memory_b a) :=
  ⟨by decide, conway_full_overwrite none memory_b 0 4 2 2 1 (by decide) (by decide)
    (by decide) (by decide) (by decide)⟩

/-! ## The configuration `lives = 0` -/

theorem conway_run_zero (accumulate : Option Nat) (inp out : Nat → Nat)
    (width height : Nat) :
    conway_run accumulate inp out width height 0 = Except.error Fault.division_by_zero := by
  simp [conway_run, checked_div]

theorem conway_run_pos (accumulate : Option Nat) (inp out : Nat → Nat)
    (width height lives : Nat) (hlives : 1 ≤ lives) :
    ∃ next, conway_run accumulate inp out width height lives = Except.ok next ∧
      conway accumulate inp out width height lives = some next := by
  have hne : lives ≠ 0 := by omega
  refine ⟨_, ?_, conway_eq_some accumulate inp out width height lives hlives⟩
  simp [conway_run, checked_div, hne]

theorem random_populate_loop_pos (draws : Nat → Nat) (lives : Nat) (hlives : 1 ≤ lives)
    (l : List Nat) (out : Nat → Nat) :
    ∃ filled, random_populate_loop draws lives l out = Except.ok filled := by
  have hne : lives ≠ 0 := by omega
  induction l generalizing out with
  | nil => exact ⟨out, rfl⟩
  | cons x xs ih =>
    obtain ⟨filled, hfilled⟩ := ih (Function.update out x (to_u8 (draws x * 255 / lives)))
    refine ⟨filled, ?_⟩
    simp only [random_populate_loop, checked_div, if_neg hne]
    exact_mod_cast hfilled

theorem random_populate_zero (draws out : Nat → Nat) (size : Nat) (hsize : 1 ≤ size) :
    random_populate draws out size 0 = Except.error Fault.division_by_zero := by
  obtain ⟨n, rfl⟩ : ∃ n, size = n + 1 := ⟨size - 1, by omega⟩
  unfold random_populate
  rw [List.range_succ_eq_map]
  simp [random_populate_loop, checked_div]

/-- C17, as stated, fails: on a 1×1 grid with `lives = 0`, `conway` evaluates
`255 / lives`, and `random_populate` with one cell evaluates its division by
`lives`; both end in a division by zero, neither in a configuration error. -/
theorem lives_zero_divides :
    conway_run none grid_zero stale 1 1 0 = Except.error Fault.division_by_zero ∧
    conway_run none grid_zero stale 1 1 0 ≠ Except.error Fault.configuration_error ∧
    random_populate grid_zero stale 1 0 = Except.error Fault.division_by_zero ∧
    random_populate grid_zero stale 1 0 ≠ Except.error Fault.configuration_error := by
  have h1 := conway_run_zero none grid_zero stale 1 1
  have h2 := random_populate_zero grid_zero stale 1 (by decide)
  refine ⟨h1, ?_, h2, ?_⟩
  · rw [h1]; intro h; cases h
  · rw [h2]; intro h; cases h

/-- C17, amended: neither `conway` nor `random_populate` tests `lives`, and
neither ever reports a configuration error. With `lives = 0`, `conway` evaluates
`255 / lives` before its loop, whatever the grid, and `random_populate` evaluates
its division by `lives` as soon as there is one cell to fill (with no cell it
returns the buffer as it is). With `lives ≥ 1` both return normally; the program
itself passes `cell_lives = 1`. -/
theorem lives_unchecked (accumulate : Option Nat) (inp out draws : Nat → Nat)
    (width height size lives : Nat) :
    conway_run accumulate inp out width height lives ≠
      Except.error Fault.configuration_error ∧
    random_populate draws out size lives ≠ Except.error Fault.configuration_error ∧
    (lives = 0 →
      conway_run accumulate inp out width height lives =
        Except.error Fault.division_by_zero ∧
      (1 ≤ size → random_populate draws out size lives =
        Except.error Fault.division_by_zero) ∧
      random_populate draws out 0 lives = Except.ok out) ∧
    (1 ≤ lives →
      (∃ next, conway_run accumulate inp out width height lives = Except.ok next ∧
        conway accumulate inp out width height lives = some next) ∧
      ∃ filled, random_populate draws out size lives = Except.ok filled) ∧
    (∃ next, conway_run accumulate inp out width height cell_lives = Except.ok next) := by
  have hpos : 1 ≤ lives →
      (∃ next, conway_run accumulate inp out width height lives = Except.ok next ∧
        conway accumulate inp out width height lives = some next) ∧
      ∃ filled, random_populate draws out size lives = Except.ok filled :=
    fun hl => ⟨conway_run_pos accumulate inp out width height lives hl,
      random_populate_loop_pos draws lives hl (List.range size) out⟩
  have hzero : lives = 0 →
      conway_run accumulate inp out width height lives =
        Except.error Fault.division_by_zero ∧
      (1 ≤ size → random_populate draws out size lives =
        Except.error Fault.division_by_zero) ∧
      random_populate draws out 0 lives = Except.ok out := by
    rintro rfl
    exact ⟨conway_run_zero accumulate inp out width height,
      fun hs => random_populate_zero draws out size hs, rfl⟩
  refine ⟨?_, ?_, hzero, hpos, ?_⟩
  · rcases Nat.eq_zero_or_pos lives with h0 | h1
    · rw [(hzero h0).1]; intro h; cases h
    · obtain ⟨next, hnext, _⟩ := (hpos h1).1
      rw [hnext]; intro h; cases h
  · rcases Nat.eq_zero_or_pos lives with h0 | h1
    · rcases Nat.eq_zero_or_pos size with s0 | s1
      · rw [s0, (hzero h0).2.2]; intro h; cases h
      · rw [(hzero h0).2.1 s1]; intro h; cases h
    · obtain ⟨filled, hfilled⟩ := (hpos h1).2
      rw [hfilled]; intro h; cases h
  · obtain ⟨next, hnext, _⟩ :=
      conway_run_pos accumulate inp out width height cell_lives (by decide)
    exact ⟨next, hnext⟩

/-! ## Grids of `2^32` cells -/

/-- On a 65536×65536 grid the product `width * height` is `0` in `u32`, so the
loop of `conway` does not run and the destination is returned as it was. -/
theorem conway_big_grid (accumulate : Option Nat) (inp out : Nat → Nat) (lives : Nat)
    (hlives : 1 ≤ lives) :
    conway accumulate inp out 65536 65536 lives = some out := by
  have hb : loop_bound 65536 65536 = 0 := by decide
  rw [conway_eq_some accumulate inp out 65536 65536 lives hlives, hb]
  rfl

/-- C1, as stated, fails on a 65536×65536 grid: cell `0` is dead with exactly 3
live neighbours, yet `next[0]` is zero after the call, the destination being
zero before it, because the loop does not reach the cell. -/
theorem conway_classic_life_big_grid :
    (0 < 65536 ∧ 0 < 65536 * 65536 ∧
      grid_of_cells 65536 [(1, 0), (0, 1), (1, 1)] 0 = 0 ∧
      live_neighbour_count (grid_of_cells 65536 [(1, 0), (0, 1), (1, 1)]) 65536 65536 0 = 3) ∧
    ∃ next, conway none (grid_of_cells 65536 [(1, 0), (0, 1), (1, 1)]) grid_zero
        65536 65536 1 = some next ∧
      next 0 = 0 ∧
      ¬ (next 0 ≠ 0 ↔
        (grid_of_cells 65536 [(1, 0), (0, 1), (1, 1)] 0 ≠ 0 ∧
          (live_neighbour_count (grid_of_cells 65536 [(1, 0), (0, 1), (1, 1)])
              65536 65536 0 = 2 ∨
            live_neighbour_count (grid_of_cells 65536 [(1, 0), (0, 1), (1, 1)])
              65536 65536 0 = 3)) ∨
        (grid_of_cells 65536 [(1, 0), (0, 1), (1, 1)] 0 = 0 ∧
          live_neighbour_count (grid_of_cells 65536 [(1, 0), (0, 1), (1, 1)])
            65536 65536 0 = 3)) := by
  have hdead : grid_of_cells 65536 [(1, 0), (0, 1), (1, 1)] 0 = 0 := by decide
  have hcount : live_neighbour_count (grid_of_cells 65536 [(1, 0), (0, 1), (1, 1)])
      65536 65536 0 = 3 := by decide
  refine ⟨⟨by decide, by decide, hdead, hcount⟩, grid_zero,
    conway_big_grid none _ grid_zero 1 (by decide), rfl, ?_⟩
  intro h
  exact (h.mpr (Or.inr ⟨hdead, hcount⟩)) rfl

/-- C6, as stated, fails on a 65536×65536 grid: the same source grid with two
destination buffers that differ at cell `0` leaves two different values in
`next[0]`, because the loop does not reach the cell. -/
theorem conway_locality_big_grid :
    (0 < 65536 ∧ 0 < 65536 * 65536) ∧
    ∃ next1 next2, conway none grid_zero stale 65536 65536 1 = some next1 ∧
      conway none grid_zero grid_zero 65536 65536 1 = some next2 ∧
      next1 0 ≠ next2 0 :=
  ⟨by decide, stale, grid_zero, conway_big_grid none grid_zero stale 1 (by decide),
    conway_big_grid none grid_zero grid_zero 1 (by decide), by decide⟩

/-- C15, as stated, fails on a 65536×65536 grid: with the 2×2 square in the top
left corner and a destination that is zero before the call, `next[0]` is zero
after it and the square is lost, because the loop does not reach the cell. -/
theorem block_still_life_big_grid :
    (2 ≤ 65536 ∧ 0 + 1 < 65536 ∧ grid_of_cells 65536 (block_cells 0 0) 0 = 255) ∧
    ∃ next, conway none (grid_of_cells 65536 (block_cells 0 0)) grid_zero
        65536 65536 1 = some next ∧
      next 0 ≠ grid_of_cells 65536 (block_cells 0 0) 0 :=
  ⟨by decide, grid_zero, conway_big_grid none _ grid_zero 1 (by decide), by decide⟩

/-- C19, as stated, fails on a 65536×65536 grid: with `lives = 255`, so `step = 1`,
a dead cell `0` and a destination that holds 9 there from an earlier frame,
`next[0]` is 9 after the call: neither `0` nor `step`, and above
`max (current[0]) step`. -/
theorem conway_decay_only_bound_big_grid :
    (0 < 65536 ∧ 0 < 65536 * 65536 ∧ 1 ≤ 255 ∧ grid_zero 0 = 0 ∧ 255 / 255 = 1) ∧
    ∃ next, conway none grid_zero stale 65536 65536 255 = some next ∧
      next 0 = 9 ∧
      ¬ (next 0 = 0 ∨ next 0 = 255 / 255) ∧
      ¬ next 0 ≤ max (grid_zero 0) (255 / 255) :=
  ⟨by decide, stale, conway_big_grid none grid_zero stale 255 (by decide), by decide,
    by decide, by decide⟩

end Conway
